import Mathlib

/-!
Verification of the self-adjoint matrix * vector kernel
(`Eigen/src/Core/products/SelfadjointMatrixVector.h`).

The kernel computes `res += alpha * A * x` for a square matrix `A` stored in
one triangular half.  We embed the kernel shallowly: buffers are functions
`Nat -> R` over a commutative ring `R` with a star operation (`star` models
`ei_conj`; for real scalar types `star` is the identity), SIMD packets are
lane-indexed functions with the lane count `ps` a platform parameter, and the
alignment offset of the result pointer is derived from a parameter `resAlign`
(the element residue of the result base address), following the spec's
description of the collaborator primitives.
-/

namespace SelfadjointMV

variable {R : Type*} [CommRing R] [StarRing R]

/-- `ei_conj`: scalar conjugation (identity on real scalar types). -/
def ei_conj (a : R) : R := star a

/-- Conditional conjugation, used to model the compile-time selected
conjugation behaviour of `ei_conj_helper`. -/
def conjIf (c : Bool) (a : R) : R := if c then ei_conj a else a

/-- `ei_conj_helper<ca,cb>::pmul(x,y)`: multiply after conjugating each
factor according to its flag. -/
def cjPmul (ca cb : Bool) (x y : R) : R := conjIf ca x * conjIf cb y

/-- `ei_pset1`: broadcast a scalar into every lane of a packet. -/
def ei_pset1 (t : R) : ℕ → R := fun _ => t

/-- `ei_ploadu`: unaligned packet load starting at element `i`. -/
def ei_ploadu (f : ℕ → R) (i : ℕ) : ℕ → R := fun l => f (i + l)

/-- `ei_pload`: aligned packet load (same values as an unaligned load;
alignment is a performance distinction only). -/
def ei_pload (f : ℕ → R) (i : ℕ) : ℕ → R := ei_ploadu f i

/-- `ei_pstore`: store the `ps` lanes of a packet at elements
`i, i+1, ..., i+ps-1`. -/
def ei_pstore (ps : ℕ) (f : ℕ → R) (i : ℕ) (p : ℕ → R) : ℕ → R :=
  fun m => if i ≤ m ∧ m < i + ps then p (m - i) else f m

/-- `ei_predux`: horizontal reduction (sum of the `ps` lanes). -/
def ei_predux (ps : ℕ) (p : ℕ → R) : R := ∑ l ∈ Finset.range ps, p l

/-- `ei_conj_helper<ca,cb>::pmadd` on packets: lane-wise `pmul` plus
accumulator. -/
def cjPmadd (ca cb : Bool) (pa pb pc : ℕ → R) : ℕ → R :=
  fun l => cjPmul ca cb (pa l) (pb l) + pc l

/-- Modelled from the spec: `ei_alignmentOffset(&res[pos], len)` — the number
of leading elements needed, starting from the address of `res[pos]`, to reach
the next address aligned for a `ps`-lane packet, capped at `len`.  `resAlign`
is the element residue of the result base address modulo the packet size. -/
def ei_alignmentOffset (resAlign ps pos len : ℕ) : ℕ :=
  min len ((ps - (resAlign + pos) % ps) % ps)

/-- Pointwise update of a buffer (a single element store). -/
def upd (f : ℕ → R) (k : ℕ) (v : R) : ℕ → R := fun m => if m = k then v else f m

/-- A scalar accumulation loop over `n` consecutive indices starting at `i`:
`res[i] += fr i; t2 += g2 i; t3 += g3 i`.  Used for the unaligned head, the
tail, and the single-column fallback inner loop. -/
def scLoop (fr g2 g3 : ℕ → R) : ℕ → ℕ → ((ℕ → R) × R × R) → ((ℕ → R) × R × R)
  | _, 0, st => st
  | i, n+1, st =>
      scLoop fr g2 g3 (i+1) n (upd st.1 i (st.1 i + fr i), st.2.1 + g2 i, st.2.2 + g3 i)

/-- The vectorized body loop (lines 117-128): `n` packet steps of width `ps`
starting at `i`.  State: result buffer and the two lane accumulators
`ptmp2`, `ptmp3`. -/
def pkLoop (ps : ℕ) (a0f a1f bf : ℕ → R) (c0a c0b c1a c1b : Bool) (p0 p1 : ℕ → R) :
    ℕ → ℕ → ((ℕ → R) × (ℕ → R) × (ℕ → R)) → ((ℕ → R) × (ℕ → R) × (ℕ → R))
  | _, 0, st => st
  | i, n+1, st =>
      pkLoop ps a0f a1f bf c0a c0b c1a c1b p0 p1 (i + ps) n
        (ei_pstore ps st.1 i
          (cjPmadd c0a c0b (ei_ploadu a0f i) p0
            (cjPmadd c0a c0b (ei_ploadu a1f i) p1 (ei_pload st.1 i))),
         cjPmadd c1a c1b (ei_ploadu a0f i) (ei_ploadu bf i) st.2.1,
         cjPmadd c1a c1b (ei_ploadu a1f i) (ei_ploadu bf i) st.2.2)

/-- Iterate a column-processing step `g` over `n` column indices
`j, j+step, j+2*step, ...`. -/
def iterN (g : ℕ → (ℕ → R) → (ℕ → R)) : ℕ → ℕ → ℕ → (ℕ → R) → (ℕ → R)
  | _, _, 0, res => res
  | j, step, n+1, res => iterN g (j + step) step n (g j res)

/-- All arguments of the kernel, with the operand already materialized as a
contiguous buffer (`rhs`), plus the modelled platform parameters `ps`
(packet lane count) and `resAlign` (result base address residue). -/
structure KArgs (R : Type*) where
  isComplex : Bool
  IsRowMajor : Bool
  IsLower : Bool
  ConjugateLhs : Bool
  ConjugateRhs : Bool
  ps : ℕ
  resAlign : ℕ
  size : ℕ
  lhs : ℕ → R
  lhsStride : ℕ
  rhs : ℕ → R
  alpha : R

namespace KArgs

/-- `FirstTriangular = IsRowMajor == IsLower` (line 46). -/
def FT (a : KArgs R) : Bool := a.IsRowMajor == a.IsLower

/-- Matrix-side conjugation flag of `cj0` (line 49):
`IsComplex && (ConjugateLhs XOR IsRowMajor)`. -/
def ca0 (a : KArgs R) : Bool := a.isComplex && (a.ConjugateLhs != a.IsRowMajor)

/-- Operand-side conjugation flag of `cj0` (line 49): `ConjugateRhs`. -/
def cb0 (a : KArgs R) : Bool := a.ConjugateRhs

/-- Matrix-side conjugation flag of `cj1` (line 50):
`IsComplex && (ConjugateLhs XOR !IsRowMajor)`. -/
def ca1 (a : KArgs R) : Bool := a.isComplex && (a.ConjugateLhs != !a.IsRowMajor)

/-- Operand-side conjugation flag of `cj1` (line 50): `ConjugateRhs`. -/
def cb1 (a : KArgs R) : Bool := a.ConjugateRhs

/-- `cjAlpha = ConjugateRhs ? ei_conj(alpha) : alpha` (line 52). -/
def cjAlpha (a : KArgs R) : R := if a.ConjugateRhs then ei_conj a.alpha else a.alpha

/-- `A0[i]`, with `A0 = lhs + j*lhsStride` (line 73). -/
def A0 (a : KArgs R) (j i : ℕ) : R := a.lhs (j * a.lhsStride + i)

/-- `A1[i]`, with `A1 = lhs + (j+1)*lhsStride` (line 74). -/
def A1 (a : KArgs R) (j i : ℕ) : R := a.lhs ((j + 1) * a.lhsStride + i)

/-- `bound = std::max(0,size-8) & 0xfffffffE` (line 66): saturating
subtraction then clearing the low bit, i.e. rounding down to even. -/
def bound0 (a : KArgs R) : ℕ := 2 * ((a.size - 8) / 2)

/-- `bound` after the `FirstTriangular` reassignment (lines 67-68). -/
def bound (a : KArgs R) : ℕ := if a.FT then a.size - a.bound0 else a.bound0

/-- First column index of the two-column blocked loop (line 70). -/
def jstart (a : KArgs R) : ℕ := if a.FT then a.bound else 0

/-- Stop bound of the two-column blocked loop (line 71). -/
def jstop (a : KArgs R) : ℕ := if a.FT then a.size else a.bound

/-- Number of iterations of the two-column blocked loop
(`for (j = jstart; j < jstop; j += 2)`). -/
def numPairs (a : KArgs R) : ℕ := (a.jstop - a.jstart + 1) / 2

/-- First column index of the single-column fallback loop (line 139). -/
def fstart (a : KArgs R) : ℕ := if a.FT then 0 else a.bound

/-- Stop bound of the single-column fallback loop (line 139). -/
def fstop (a : KArgs R) : ℕ := if a.FT then a.bound else a.size

/-- Number of iterations of the single-column fallback loop. -/
def numFb (a : KArgs R) : ℕ := a.fstop - a.fstart

/-- `starti` of a blocked iteration (line 86). -/
def starti (a : KArgs R) (j : ℕ) : ℕ := if a.FT then 0 else j + 2

/-- `endi` of a blocked iteration (line 87). -/
def endi (a : KArgs R) (j : ℕ) : ℕ := if a.FT then j else a.size

/-- `alignedStart` of a blocked iteration (line 89). -/
def alignedStart (a : KArgs R) (j : ℕ) : ℕ :=
  a.starti j + ei_alignmentOffset a.resAlign a.ps (a.starti j) (a.endi j - a.starti j)

/-- `alignedEnd` of a blocked iteration (line 90). -/
def alignedEnd (a : KArgs R) (j : ℕ) : ℕ :=
  a.alignedStart j + ((a.endi j - a.alignedStart j) / a.ps) * a.ps

/-- Inner loop start of a fallback column (line 146). -/
def fstarti (a : KArgs R) (j : ℕ) : ℕ := if a.FT then 0 else j + 1

/-- Inner loop stop of a fallback column (line 146). -/
def fendi (a : KArgs R) (j : ℕ) : ℕ := if a.FT then j else a.size

end KArgs

/-- One iteration of the two-column blocked loop (lines 72-137). -/
def pairIter (a : KArgs R) (j : ℕ) (res : ℕ → R) : ℕ → R :=
  let t0 := a.cjAlpha * a.rhs j
  let ptmp0 := ei_pset1 t0
  let t1 := a.cjAlpha * a.rhs (j + 1)
  let ptmp1 := ei_pset1 t1
  -- line 92: res[j] += cj0.pmul(A0[j], t0)
  let res1 := upd res j (res j + cjPmul a.ca0 a.cb0 (a.A0 j j) t0)
  -- lines 93-103: the 2x2 diagonal block and the t2/t3 seed terms
  let res2 :=
    if a.FT then
      let r := upd res1 (j + 1) (res1 (j + 1) + cjPmul a.ca0 a.cb0 (a.A1 j (j + 1)) t1)
      upd r j (r j + cjPmul a.ca0 a.cb0 (a.A1 j j) t1)
    else
      upd res1 (j + 1)
        (res1 (j + 1) + (cjPmul a.ca0 a.cb0 (a.A0 j (j + 1)) t0 +
          cjPmul a.ca0 a.cb0 (a.A1 j (j + 1)) t1))
  let t2i : R := if a.FT then 0 else cjPmul a.ca1 a.cb1 (a.A0 j (j + 1)) (a.rhs (j + 1))
  let t3i : R := if a.FT then cjPmul a.ca1 a.cb1 (a.A1 j j) (a.rhs j) else 0
  -- lines 105-110: unaligned scalar head (plain products and a plain ei_conj,
  -- not the cj0/cj1 helpers)
  let stH := scLoop (fun i => t0 * a.A0 j i + t1 * a.A1 j i)
                    (fun i => ei_conj (a.A0 j i) * a.rhs i)
                    (fun i => ei_conj (a.A1 j i) * a.rhs i)
                    (a.starti j) (a.alignedStart j - a.starti j) (res2, t2i, t3i)
  -- lines 113-128: aligned vectorized body
  let stB := pkLoop a.ps (a.A0 j) (a.A1 j) a.rhs a.ca0 a.cb0 a.ca1 a.cb1 ptmp0 ptmp1
               (a.alignedStart j) ((a.endi j - a.alignedStart j) / a.ps)
               (stH.1, ei_pset1 0, ei_pset1 0)
  -- lines 129-134: scalar tail
  let stT := scLoop (fun i => cjPmul a.ca0 a.cb0 (a.A0 j i) t0 +
                       cjPmul a.ca0 a.cb0 (a.A1 j i) t1)
                    (fun i => cjPmul a.ca1 a.cb1 (a.A0 j i) (a.rhs i))
                    (fun i => cjPmul a.ca1 a.cb1 (a.A1 j i) (a.rhs i))
                    (a.alignedEnd j) (a.endi j - a.alignedEnd j) (stB.1, stH.2.1, stH.2.2)
  -- lines 136-137: finalize the two column accumulators
  let resF := upd stT.1 j (stT.1 j + a.alpha * (stT.2.1 + ei_predux a.ps stB.2.1))
  upd resF (j + 1) (resF (j + 1) + a.alpha * (stT.2.2 + ei_predux a.ps stB.2.2))

/-- One iteration of the single-column scalar fallback loop (lines 140-150). -/
def fbIter (a : KArgs R) (j : ℕ) (res : ℕ → R) : ℕ → R :=
  let t1 := a.cjAlpha * a.rhs j
  let res1 := upd res j (res j + cjPmul a.ca0 a.cb0 (a.A0 j j) t1)
  let st := scLoop (fun i => cjPmul a.ca0 a.cb0 (a.A0 j i) t1)
                   (fun i => cjPmul a.ca1 a.cb1 (a.A0 j i) (a.rhs i))
                   (fun _ => 0)
                   (a.fstarti j) (a.fendi j - a.fstarti j) (res1, 0, 0)
  upd st.1 j (st.1 j + a.alpha * st.2.1)

/-- The kernel body on materialized arguments: the two-column blocked loop
followed by the single-column fallback loop. -/
def kernelRun (a : KArgs R) (res : ℕ → R) : ℕ → R :=
  iterN (fbIter a) a.fstart 1 a.numFb (iterN (pairIter a) a.jstart 2 a.numPairs res)

/-- The argument record the kernel body runs on.  The template parameters
`StorageOrder` and `UpLo` are passed as the decoded booleans
`StorageOrder == RowMajorBit` and `UpLo == LowerTriangularBit` (lines 44-45).
If `rhsIncr != 1` the operand is first copied into a contiguous scratch
buffer of `size` elements (lines 56-64). -/
def kernelArgs
    (isComplex IsRowMajor IsLower ConjugateLhs ConjugateRhs : Bool)
    (ps resAlign : ℕ)
    (size : ℕ) (lhs : ℕ → R) (lhsStride : ℕ)
    (rhsBuf : ℕ → R) (rhsIncr : ℕ) (alpha : R) : KArgs R :=
  { isComplex := isComplex, IsRowMajor := IsRowMajor, IsLower := IsLower,
    ConjugateLhs := ConjugateLhs, ConjugateRhs := ConjugateRhs,
    ps := ps, resAlign := resAlign, size := size,
    lhs := lhs, lhsStride := lhsStride,
    rhs := if rhsIncr = 1 then rhsBuf else fun i => if i < size then rhsBuf (i * rhsIncr) else 0,
    alpha := alpha }

/-- `ei_product_selfadjoint_vector` (lines 34-155): materialize the operand
(copying it into a contiguous scratch buffer when its stride is not 1,
lines 56-64), then run the kernel body on the accumulator. -/
def ei_product_selfadjoint_vector
    (isComplex IsRowMajor IsLower ConjugateLhs ConjugateRhs : Bool)
    (ps resAlign : ℕ)
    (size : ℕ) (lhs : ℕ → R) (lhsStride : ℕ)
    (rhsBuf : ℕ → R) (rhsIncr : ℕ) (res : ℕ → R) (alpha : R) : ℕ → R :=
  kernelRun
    (kernelArgs isComplex IsRowMajor IsLower ConjugateLhs ConjugateRhs
      ps resAlign size lhs lhsStride rhsBuf rhsIncr alpha) res

/-- Mirrors the guard of lines 57-59: the contiguous scratch buffer for the
operand is allocated exactly when `rhsIncr != 1`. -/
def kernelAllocScratch (rhsIncr : ℕ) : Bool := rhsIncr != 1

/-- Mirrors the guard of lines 153-154: the scratch buffer is released before
return exactly when `rhsIncr != 1`. -/
def kernelFreeScratch (rhsIncr : ℕ) : Bool := rhsIncr != 1

/-! ### Reference semantics

The contract of the kernel: `res[i] += alpha * sum_j A[i][j] * x[j]`, where
entries of `A` outside the stored triangle are derived by (conjugate)
symmetry from the stored ones. -/

/-- The physical buffer element holding logical entry `(r, c)`: row-major
storage keeps logical rows consecutive (`lhs[r*lhsStride + c]`), column-major
keeps logical columns consecutive (`lhs[c*lhsStride + r]`). -/
def physRead (IsRowMajor : Bool) (lhs : ℕ → R) (lhsStride r c : ℕ) : R :=
  if IsRowMajor then lhs (r * lhsStride + c) else lhs (c * lhsStride + r)

/-- Whether logical entry `(r, c)` lies in the stored triangle
(diagonal included). -/
def inStored (IsLower : Bool) (r c : ℕ) : Prop :=
  if IsLower then c ≤ r else r ≤ c

instance (IsLower : Bool) (r c : ℕ) : Decidable (inStored IsLower r c) := by
  unfold inStored; infer_instance

/-- The effective matrix entry `A[r][c]`: inside the stored triangle it is
the stored value, conjugated when the matrix conjugation flag is set (for a
complex scalar type); outside it is derived from the transposed stored entry
by conjugate symmetry (`A[r][c] = conj(A[c][r])`, plain symmetry in the real
case). -/
def Mmat (isComplex IsRowMajor IsLower ConjugateLhs : Bool)
    (lhs : ℕ → R) (lhsStride : ℕ) (r c : ℕ) : R :=
  if inStored IsLower r c then
    conjIf (isComplex && ConjugateLhs) (physRead IsRowMajor lhs lhsStride r c)
  else
    conjIf isComplex (conjIf (isComplex && ConjugateLhs) (physRead IsRowMajor lhs lhsStride c r))

/-- The logical operand element `x[k]` of a strided vector view. -/
def xlog (rhsBuf : ℕ → R) (rhsIncr k : ℕ) : R := rhsBuf (k * rhsIncr)

/-- The reference (naive dense) result:
`res[i] += alpha * sum_c A[i][c] * x'[c]` for `i < size`, entries above
`size` untouched; `x'` is the operand conjugated when the operand conjugation
flag is set. -/
def refRes (isComplex IsRowMajor IsLower ConjugateLhs ConjugateRhs : Bool)
    (size : ℕ) (lhs : ℕ → R) (lhsStride : ℕ)
    (rhsBuf : ℕ → R) (rhsIncr : ℕ) (res : ℕ → R) (alpha : R) : ℕ → R :=
  fun i =>
    if i < size then
      res i + alpha * ∑ c ∈ Finset.range size,
        Mmat isComplex IsRowMajor IsLower ConjugateLhs lhs lhsStride i c *
          conjIf ConjugateRhs (xlog rhsBuf rhsIncr c)
    else res i

/-! ### Closed forms of the loop deltas

Every store of the kernel is an accumulation `res[i] += _`, so the kernel
adds to the initial accumulator a delta that does not depend on it.  The
next definitions give that delta explicitly; the lemmas below prove that the
operational definitions compute it. -/

/-- The delta contributed to `res[m]` by one two-column blocked iteration at
columns `j`, `j+1`. -/
def pairDelta (a : KArgs R) (j : ℕ) : ℕ → R := fun m =>
  let t0 := a.cjAlpha * a.rhs j
  let t1 := a.cjAlpha * a.rhs (j + 1)
  let s := a.starti j
  let e := a.endi j
  let aS := a.alignedStart j
  let t2sum : R :=
    (if a.FT then 0 else cjPmul a.ca1 a.cb1 (a.A0 j (j + 1)) (a.rhs (j + 1))) +
    (∑ i ∈ Finset.Ico s aS, ei_conj (a.A0 j i) * a.rhs i) +
    (∑ i ∈ Finset.Ico aS e, cjPmul a.ca1 a.cb1 (a.A0 j i) (a.rhs i))
  let t3sum : R :=
    (if a.FT then cjPmul a.ca1 a.cb1 (a.A1 j j) (a.rhs j) else 0) +
    (∑ i ∈ Finset.Ico s aS, ei_conj (a.A1 j i) * a.rhs i) +
    (∑ i ∈ Finset.Ico aS e, cjPmul a.ca1 a.cb1 (a.A1 j i) (a.rhs i))
  (if s ≤ m ∧ m < aS then t0 * a.A0 j m + t1 * a.A1 j m else 0) +
  (if aS ≤ m ∧ m < e then
      cjPmul a.ca0 a.cb0 (a.A0 j m) t0 + cjPmul a.ca0 a.cb0 (a.A1 j m) t1 else 0) +
  (if m = j then
      cjPmul a.ca0 a.cb0 (a.A0 j j) t0 +
      (if a.FT then cjPmul a.ca0 a.cb0 (a.A1 j j) t1 else 0) +
      a.alpha * t2sum
    else 0) +
  (if m = j + 1 then
      (if a.FT then cjPmul a.ca0 a.cb0 (a.A1 j (j + 1)) t1
       else cjPmul a.ca0 a.cb0 (a.A0 j (j + 1)) t0 +
            cjPmul a.ca0 a.cb0 (a.A1 j (j + 1)) t1) +
      a.alpha * t3sum
    else 0)

/-- The delta contributed to `res[m]` by one single-column fallback iteration
at column `j`. -/
def fbDelta (a : KArgs R) (j : ℕ) : ℕ → R := fun m =>
  let t1 := a.cjAlpha * a.rhs j
  let s := a.fstarti j
  let e := a.fendi j
  (if s ≤ m ∧ m < e then cjPmul a.ca0 a.cb0 (a.A0 j m) t1 else 0) +
  (if m = j then
      cjPmul a.ca0 a.cb0 (a.A0 j j) t1 +
      a.alpha * ∑ i ∈ Finset.Ico s e, cjPmul a.ca1 a.cb1 (a.A0 j i) (a.rhs i)
    else 0)

/-- The total delta the kernel adds to `res[m]`. -/
def totalDelta (a : KArgs R) : ℕ → R := fun m =>
  (∑ k ∈ Finset.range a.numPairs, pairDelta a (a.jstart + 2 * k) m) +
  (∑ k ∈ Finset.range a.numFb, fbDelta a (a.fstart + k) m)

/-- The per-column delta of the reference semantics: processing logical
column `c` contributes the direct terms `alpha * A[m][c] * x'[c]` for the
result indices `m` on the stored side of `c`, and the transposed
contribution `alpha * sum_i A[c][i] * x'[i]` (over the indices `i` strictly
on the other side) to `res[c]` itself. -/
def colDeltaRef (a : KArgs R) (c : ℕ) : ℕ → R := fun m =>
  (if (if a.FT then m ≤ c else c ≤ m ∧ m < a.size) then
      a.alpha * Mmat a.isComplex a.IsRowMajor a.IsLower a.ConjugateLhs a.lhs a.lhsStride m c *
        conjIf a.ConjugateRhs (a.rhs c)
    else 0) +
  (if m = c then
      a.alpha * ∑ i ∈ (if a.FT then Finset.Ico 0 c else Finset.Ico (c + 1) a.size),
        Mmat a.isComplex a.IsRowMajor a.IsLower a.ConjugateLhs a.lhs a.lhsStride c i *
          conjIf a.ConjugateRhs (a.rhs i)
    else 0)

/-! ### Dispatch wrapper model (`SelfadjointProductMatrix::scaleAndAddTo`,
lines 178-197) -/

/-- Modelled from the spec: the blas-traits view of one operand expression —
its embedded scalar factor and whether the operand is itself flagged as a
conjugated/transposed expression (`NeedToConjugate`); the traits class
itself is not part of this excerpt. -/
structure BlasOperand (R : Type*) where
  factor : R
  needToConjugate : Bool

/-- Modelled from the spec: the combined scale factor the wrapper passes to
the kernel — the product of the caller's scale and each operand's embedded
scalar factor, the vector side's factor conjugated when the vector side is
flagged as a transposed/conjugated expression. -/
def actualAlpha (alpha : R) (lhsOp rhsOp : BlasOperand R) : R :=
  alpha * lhsOp.factor * (if rhsOp.needToConjugate then ei_conj rhsOp.factor else rhsOp.factor)

/-- `scaleAndAddTo` (lines 178-197): assert that the destination has matching
dimensions and unit stride, then invoke the kernel exactly once with the
combined scale factor and the conjugation flags taken from the two operands.
Returns `none` on assertion failure, otherwise the updated destination
together with the number of kernel invocations. -/
def scaleAndAddTo (isComplex IsRowMajor IsLower : Bool)
    (lhsOp rhsOp : BlasOperand R) (ps resAlign : ℕ)
    (size : ℕ) (lhs : ℕ → R) (lhsStride : ℕ)
    (rhsBuf : ℕ → R) (rhsIncr : ℕ)
    (dstLen dstStride : ℕ) (dst : ℕ → R) (alpha : R) : Option ((ℕ → R) × ℕ) :=
  if dstLen = size ∧ dstStride = 1 then
    some (ei_product_selfadjoint_vector isComplex IsRowMajor IsLower
            lhsOp.needToConjugate rhsOp.needToConjugate ps resAlign
            size lhs lhsStride rhsBuf rhsIncr dst (actualAlpha alpha lhsOp rhsOp), 1)
  else none

/-- A storage buffer for a logical matrix `A`: the element at physical
address `k` holds `A[k/S][k%S]` (row-major) or `A[k%S][k/S]`
(column-major). -/
def symmStorage (S : ℕ) (IsRowMajor : Bool) (A : ℕ → ℕ → R) : ℕ → R :=
  fun k => if IsRowMajor then A (k / S) (k % S) else A (k % S) (k / S)

/-! ### Concrete instances

Executable scalar types for evaluating the development on concrete inputs:
the Gaussian integers `Zsqrtd (-1)` (a computable complex scalar type whose
`star` is conjugation, so `isComplex = true`) and `ℤ` (a real scalar type
whose `star` is the identity, so `isComplex = false`). -/

/-- A 10x10 row-major lower-stored Hermitian buffer with stride 10: every
stored entry is 1 except `A[8][0] = i` at address `8*10+0 = 80`. -/
def gLhsRM : ℕ → Zsqrtd (-1) := fun k => if k = 80 then ⟨0, 1⟩ else 1

/-- A 10x10 column-major lower-stored Hermitian buffer with stride 10: every
stored entry is 1 except `A[2][0] = i` at address `0*10+2 = 2`. -/
def gLhsCM : ℕ → Zsqrtd (-1) := fun k => if k = 2 then ⟨0, 1⟩ else 1

/-- The same logical Hermitian matrix as `gLhsCM`, stored row-major upper
with stride 10: `A[0][2] = conj(A[2][0]) = -i` at address `0*10+2 = 2`,
every other stored entry 1. -/
def gLhsRMU : ℕ → Zsqrtd (-1) := fun k => if k = 2 then ⟨0, -1⟩ else 1

/-- The all-ones Gaussian-integer operand. -/
def gOnes : ℕ → Zsqrtd (-1) := fun _ => 1

/-- The zero Gaussian-integer accumulator. -/
def gZeros : ℕ → Zsqrtd (-1) := fun _ => 0

/-- An integer matrix buffer: the entry at address `k` is `k`. -/
def zLhsA : ℕ → ℤ := fun k => (k : ℤ)

/-- `zLhsA` with the entry at address 1 replaced: for a 3x3 row-major
lower-stored view (stride 3) address 1 is the unstored logical entry
`(0, 1)`. -/
def zLhsB : ℕ → ℤ := fun k => if k = 1 then 99 else (k : ℤ)

/-- The all-ones integer operand. -/
def zOnes : ℕ → ℤ := fun _ => 1

/-- The zero integer accumulator. -/
def zZeros : ℕ → ℤ := fun _ => 0

/-- An integer operand buffer: the element at address `k` is `k`. -/
def zIdx : ℕ → ℤ := fun k => (k : ℤ)

/-- The de-interleaved values of `zIdx` read with stride 2 (arbitrary above
index 3). -/
def zDeint : ℕ → ℤ := fun k => if k < 3 then 2 * (k : ℤ) else 7

/-- A symmetric logical integer matrix: `A[r][c] = (r+1)*(c+1)`. -/
def zSym : ℕ → ℕ → ℤ := fun r c => ((r : ℤ) + 1) * ((c : ℤ) + 1)

/-- The spec's example: the 3x3 row-major lower-stored buffer (stride 3)
holding stored values `[[2,_,_],[1,3,_],[0,1,4]]`. -/
def specLhs : ℕ → ℤ := fun k => [2, 0, 0, 1, 3, 0, 0, 1, 4].getD k 0

/-! ## Closed forms of the loops -/

theorem scLoop_fst (fr g2 g3 : ℕ → R) :
    ∀ (n i : ℕ) (st : (ℕ → R) × R × R) (m : ℕ),
    (scLoop fr g2 g3 i n st).1 m =
      if i ≤ m ∧ m < i + n then st.1 m + fr m else st.1 m := by
  intro n
  induction n with
  | zero =>
    intro i st m
    rw [scLoop]
    have h : ¬(i ≤ m ∧ m < i + 0) := by omega
    rw [if_neg h]
  | succ n ih =>
    intro i st m
    rw [scLoop, ih]
    simp only []
    by_cases hm : m = i
    · have h1 : ¬(i + 1 ≤ m ∧ m < i + 1 + n) := by omega
      have h2 : i ≤ m ∧ m < i + (n + 1) := by omega
      rw [if_neg h1, if_pos h2]
      simp [upd, hm]
    · have h3 : upd st.1 i (st.1 i + fr i) m = st.1 m := by simp [upd, hm]
      by_cases hc : i ≤ m ∧ m < i + (n + 1)
      · have h4 : i + 1 ≤ m ∧ m < i + 1 + n := by omega
        rw [if_pos h4, if_pos hc, h3]
      · have h4 : ¬(i + 1 ≤ m ∧ m < i + 1 + n) := by omega
        rw [if_neg h4, if_neg hc, h3]

theorem scLoop_t2 (fr g2 g3 : ℕ → R) :
    ∀ (n i : ℕ) (st : (ℕ → R) × R × R),
    (scLoop fr g2 g3 i n st).2.1 = st.2.1 + ∑ k ∈ Finset.Ico i (i + n), g2 k := by
  intro n
  induction n with
  | zero => intro i st; rw [scLoop]; simp
  | succ n ih =>
    intro i st
    rw [scLoop, ih]
    simp only []
    have h1 : i < i + (n + 1) := by omega
    rw [Finset.sum_eq_sum_Ico_succ_bot h1]
    have h2 : i + 1 + n = i + (n + 1) := by omega
    rw [h2, add_assoc]

theorem scLoop_t3 (fr g2 g3 : ℕ → R) :
    ∀ (n i : ℕ) (st : (ℕ → R) × R × R),
    (scLoop fr g2 g3 i n st).2.2 = st.2.2 + ∑ k ∈ Finset.Ico i (i + n), g3 k := by
  intro n
  induction n with
  | zero => intro i st; rw [scLoop]; simp
  | succ n ih =>
    intro i st
    rw [scLoop, ih]
    simp only []
    have h1 : i < i + (n + 1) := by omega
    rw [Finset.sum_eq_sum_Ico_succ_bot h1]
    have h2 : i + 1 + n = i + (n + 1) := by omega
    rw [h2, add_assoc]

theorem pkLoop_fst (ps : ℕ) (a0f a1f bf : ℕ → R) (c0a c0b c1a c1b : Bool) (t0 t1 : R) :
    ∀ (n i : ℕ) (st : (ℕ → R) × (ℕ → R) × (ℕ → R)) (m : ℕ),
    (pkLoop ps a0f a1f bf c0a c0b c1a c1b (ei_pset1 t0) (ei_pset1 t1) i n st).1 m =
      if i ≤ m ∧ m < i + n * ps then
        cjPmul c0a c0b (a0f m) t0 + (cjPmul c0a c0b (a1f m) t1 + st.1 m)
      else st.1 m := by
  intro n
  induction n with
  | zero =>
    intro i st m
    rw [pkLoop]
    have h : ¬(i ≤ m ∧ m < i + 0 * ps) := by rw [Nat.zero_mul]; omega
    rw [if_neg h]
  | succ n ih =>
    intro i st m
    rw [pkLoop, ih]
    simp only []
    by_cases hm : i ≤ m ∧ m < i + ps
    · have h1 : ¬(i + ps ≤ m ∧ m < i + ps + n * ps) := by omega
      rw [if_neg h1]
      have h2 : i ≤ m ∧ m < i + (n + 1) * ps := by
        have hsm : (n + 1) * ps = n * ps + ps := by ring
        omega
      rw [if_pos h2]
      simp only [ei_pstore, if_pos hm, cjPmadd, ei_pload, ei_ploadu, ei_pset1]
      have h3 : i + (m - i) = m := by omega
      rw [h3]
    · have h3 : ei_pstore ps st.1 i
          (cjPmadd c0a c0b (ei_ploadu a0f i) (ei_pset1 t0)
            (cjPmadd c0a c0b (ei_ploadu a1f i) (ei_pset1 t1) (ei_pload st.1 i))) m
          = st.1 m := by
        simp only [ei_pstore, if_neg hm]
      by_cases hc : i ≤ m ∧ m < i + (n + 1) * ps
      · have h4 : i + ps ≤ m ∧ m < i + ps + n * ps := by
          have hsm : (n + 1) * ps = n * ps + ps := by ring
          omega
        rw [if_pos h4, if_pos hc, h3]
      · have h4 : ¬(i + ps ≤ m ∧ m < i + ps + n * ps) := by
          have hsm : (n + 1) * ps = n * ps + ps := by ring
          omega
        rw [if_neg h4, if_neg hc, h3]

theorem pkLoop_p2 (ps : ℕ) (a0f a1f bf : ℕ → R) (c0a c0b c1a c1b : Bool) (p0 p1 : ℕ → R) :
    ∀ (n i : ℕ) (st : (ℕ → R) × (ℕ → R) × (ℕ → R)) (l : ℕ),
    (pkLoop ps a0f a1f bf c0a c0b c1a c1b p0 p1 i n st).2.1 l =
      st.2.1 l + ∑ k ∈ Finset.range n,
        cjPmul c1a c1b (a0f (i + k * ps + l)) (bf (i + k * ps + l)) := by
  intro n
  induction n with
  | zero => intro i st l; rw [pkLoop]; simp
  | succ n ih =>
    intro i st l
    rw [pkLoop, ih]
    simp only []
    simp only [cjPmadd, ei_ploadu]
    rw [Finset.sum_range_succ']
    have h0 : i + 0 * ps + l = i + l := by ring
    rw [h0]
    have hsum : (∑ k ∈ Finset.range n,
        cjPmul c1a c1b (a0f (i + (k + 1) * ps + l)) (bf (i + (k + 1) * ps + l))) =
        ∑ k ∈ Finset.range n,
        cjPmul c1a c1b (a0f (i + ps + k * ps + l)) (bf (i + ps + k * ps + l)) := by
      apply Finset.sum_congr rfl
      intro k _
      have he : i + (k + 1) * ps + l = i + ps + k * ps + l := by ring
      rw [he]
    rw [hsum]
    ring

theorem pkLoop_p3 (ps : ℕ) (a0f a1f bf : ℕ → R) (c0a c0b c1a c1b : Bool) (p0 p1 : ℕ → R) :
    ∀ (n i : ℕ) (st : (ℕ → R) × (ℕ → R) × (ℕ → R)) (l : ℕ),
    (pkLoop ps a0f a1f bf c0a c0b c1a c1b p0 p1 i n st).2.2 l =
      st.2.2 l + ∑ k ∈ Finset.range n,
        cjPmul c1a c1b (a1f (i + k * ps + l)) (bf (i + k * ps + l)) := by
  intro n
  induction n with
  | zero => intro i st l; rw [pkLoop]; simp
  | succ n ih =>
    intro i st l
    rw [pkLoop, ih]
    simp only []
    simp only [cjPmadd, ei_ploadu]
    rw [Finset.sum_range_succ']
    have h0 : i + 0 * ps + l = i + l := by ring
    rw [h0]
    have hsum : (∑ k ∈ Finset.range n,
        cjPmul c1a c1b (a1f (i + (k + 1) * ps + l)) (bf (i + (k + 1) * ps + l))) =
        ∑ k ∈ Finset.range n,
        cjPmul c1a c1b (a1f (i + ps + k * ps + l)) (bf (i + ps + k * ps + l)) := by
      apply Finset.sum_congr rfl
      intro k _
      have he : i + (k + 1) * ps + l = i + ps + k * ps + l := by ring
      rw [he]
    rw [hsum]
    ring

/-- Flattening a grid of `n` packet steps of `ps` lanes into one index
range. -/
theorem sum_grid (f : ℕ → R) (ps : ℕ) :
    ∀ (n i : ℕ),
    ∑ k ∈ Finset.range n, ∑ l ∈ Finset.range ps, f (i + k * ps + l) =
      ∑ m ∈ Finset.Ico i (i + n * ps), f m := by
  intro n
  induction n with
  | zero => intro i; simp
  | succ n ih =>
    intro i
    rw [Finset.sum_range_succ, ih]
    have h1 : i + (n + 1) * ps = (i + n * ps) + ps := by ring
    rw [h1]
    have h2 : i ≤ i + n * ps := by omega
    have h3 : i + n * ps ≤ i + n * ps + ps := by omega
    rw [← Finset.sum_Ico_consecutive f h2 h3]
    congr 1
    rw [Finset.sum_Ico_eq_sum_range]
    have h4 : i + n * ps + ps - (i + n * ps) = ps := by omega
    rw [h4]

/-- Horizontal reduction of the first lane accumulator after the body
loop. -/
theorem pkLoop_predux_p2 (ps : ℕ) (a0f a1f bf : ℕ → R) (c0a c0b c1a c1b : Bool)
    (p0 p1 : ℕ → R) (n i : ℕ) (st : (ℕ → R) × (ℕ → R) × (ℕ → R)) :
    ei_predux ps (pkLoop ps a0f a1f bf c0a c0b c1a c1b p0 p1 i n st).2.1 =
      ei_predux ps st.2.1 +
        ∑ m ∈ Finset.Ico i (i + n * ps), cjPmul c1a c1b (a0f m) (bf m) := by
  unfold ei_predux
  rw [← sum_grid (fun m => cjPmul c1a c1b (a0f m) (bf m)) ps n i]
  rw [Finset.sum_comm]
  rw [← Finset.sum_add_distrib]
  apply Finset.sum_congr rfl
  intro l _
  rw [pkLoop_p2]

/-- Horizontal reduction of the second lane accumulator after the body
loop. -/
theorem pkLoop_predux_p3 (ps : ℕ) (a0f a1f bf : ℕ → R) (c0a c0b c1a c1b : Bool)
    (p0 p1 : ℕ → R) (n i : ℕ) (st : (ℕ → R) × (ℕ → R) × (ℕ → R)) :
    ei_predux ps (pkLoop ps a0f a1f bf c0a c0b c1a c1b p0 p1 i n st).2.2 =
      ei_predux ps st.2.2 +
        ∑ m ∈ Finset.Ico i (i + n * ps), cjPmul c1a c1b (a1f m) (bf m) := by
  unfold ei_predux
  rw [← sum_grid (fun m => cjPmul c1a c1b (a1f m) (bf m)) ps n i]
  rw [Finset.sum_comm]
  rw [← Finset.sum_add_distrib]
  apply Finset.sum_congr rfl
  intro l _
  rw [pkLoop_p3]

/-- Iterating per-column steps that each add a fixed delta adds the sum of
the deltas. -/
theorem iterN_closed (g : ℕ → (ℕ → R) → (ℕ → R)) (d : ℕ → ℕ → R)
    (hg : ∀ j res m, g j res m = res m + d j m) :
    ∀ (n j step : ℕ) (res : ℕ → R) (m : ℕ),
    iterN g j step n res m = res m + ∑ k ∈ Finset.range n, d (j + step * k) m := by
  intro n
  induction n with
  | zero => intro j step res m; rw [iterN]; simp
  | succ n ih =>
    intro j step res m
    rw [iterN, ih, hg]
    rw [Finset.sum_range_succ']
    have h0 : j + step * 0 = j := by ring
    rw [h0]
    have hsum : (∑ k ∈ Finset.range n, d (j + step * (k + 1)) m) =
        ∑ k ∈ Finset.range n, d (j + step + step * k) m := by
      apply Finset.sum_congr rfl
      intro k _
      have he : j + step * (k + 1) = j + step + step * k := by ring
      rw [he]
    rw [hsum]
    ring

/-- Interval normalization: a loop of `e - s` steps starting at `s` covers
`[s, e)`. -/
theorem Ico_start_len (s e : ℕ) : Finset.Ico s (s + (e - s)) = Finset.Ico s e := by
  rcases Nat.le_total s e with h | h
  · rw [Nat.add_sub_cancel' h]
  · have h1 : e - s = 0 := Nat.sub_eq_zero_of_le h
    rw [h1, Nat.add_zero, Finset.Ico_self, Finset.Ico_eq_empty (by omega)]

/-- Joining two consecutive interval sums (allowing the degenerate empty
case). -/
theorem sum_Ico_merge (g : ℕ → R) (x y z : ℕ) (h1 : x ≤ y) (h2 : y ≤ z ∨ y = x) :
    (∑ i ∈ Finset.Ico x y, g i) + (∑ i ∈ Finset.Ico y z, g i) =
      ∑ i ∈ Finset.Ico x z, g i := by
  rcases h2 with h | h
  · exact Finset.sum_Ico_consecutive g h1 h
  · rw [h, Finset.Ico_self]
    simp

/-- The horizontal sum of a broadcast zero packet is zero. -/
theorem predux_pset1_zero (ps : ℕ) : ei_predux ps (ei_pset1 (0 : R)) = 0 := by
  unfold ei_predux ei_pset1
  simp

theorem starti_le_alignedStart (a : KArgs R) (j : ℕ) :
    a.starti j ≤ a.alignedStart j := by
  unfold KArgs.alignedStart
  omega

theorem alignmentOffset_le (resAlign ps pos len : ℕ) :
    ei_alignmentOffset resAlign ps pos len ≤ len := by
  unfold ei_alignmentOffset
  omega

theorem alignedStart_le_endi (a : KArgs R) (j : ℕ) (h : a.starti j ≤ a.endi j) :
    a.alignedStart j ≤ a.endi j := by
  have hof := alignmentOffset_le a.resAlign a.ps (a.starti j) (a.endi j - a.starti j)
  unfold KArgs.alignedStart
  omega

theorem alignedStart_le_alignedEnd (a : KArgs R) (j : ℕ) :
    a.alignedStart j ≤ a.alignedEnd j := by
  unfold KArgs.alignedEnd
  omega

theorem alignedEnd_le_endi (a : KArgs R) (j : ℕ) (h : a.alignedStart j ≤ a.endi j) :
    a.alignedEnd j ≤ a.endi j := by
  have hd := Nat.div_mul_le_self (a.endi j - a.alignedStart j) a.ps
  unfold KArgs.alignedEnd
  omega

theorem alignedStart_of_lt (a : KArgs R) (j : ℕ) (h : a.endi j < a.starti j) :
    a.alignedStart j = a.starti j := by
  unfold KArgs.alignedStart ei_alignmentOffset
  have h0 : a.endi j - a.starti j = 0 := by omega
  rw [h0]
  simp

theorem alignedEnd_of_lt (a : KArgs R) (j : ℕ) (h : a.endi j < a.starti j) :
    a.alignedEnd j = a.starti j := by
  have hS := alignedStart_of_lt a j h
  unfold KArgs.alignedEnd
  rw [hS]
  have h0 : a.endi j - a.starti j = 0 := by omega
  rw [h0]
  simp

set_option maxHeartbeats 1600000 in
/-- Closed form of one two-column blocked iteration: it adds `pairDelta` to
the accumulator. -/
theorem pairIter_closed (a : KArgs R) (j : ℕ) (res : ℕ → R) (m : ℕ) :
    pairIter a j res m = res m + pairDelta a j m := by
  have hb1 := starti_le_alignedStart a j
  have hb2 := alignedStart_le_alignedEnd a j
  by_cases hgood : a.starti j ≤ a.endi j
  · have hb3 : a.alignedStart j ≤ a.endi j := alignedStart_le_endi a j hgood
    have hb4 : a.alignedEnd j ≤ a.endi j := alignedEnd_le_endi a j hb3
    simp only [pairIter, pairDelta, scLoop_fst, scLoop_t2, scLoop_t3, pkLoop_fst,
      pkLoop_predux_p2, pkLoop_predux_p3, predux_pset1_zero, upd, Ico_start_len]
    rw [show a.alignedStart j + (a.endi j - a.alignedStart j) / a.ps * a.ps
          = a.alignedEnd j from rfl]
    rw [← sum_Ico_merge (fun i => cjPmul a.ca1 a.cb1 (a.A0 j i) (a.rhs i))
          (a.alignedStart j) (a.alignedEnd j) (a.endi j) hb2 (Or.inl hb4)]
    rw [← sum_Ico_merge (fun i => cjPmul a.ca1 a.cb1 (a.A1 j i) (a.rhs i))
          (a.alignedStart j) (a.alignedEnd j) (a.endi j) hb2 (Or.inl hb4)]
    cases hFT : a.FT <;> simp only [hFT, Bool.false_eq_true, if_true, if_false, upd]
    · have hse : a.starti j = j + 2 ∧ a.endi j = a.size := by
        unfold KArgs.starti KArgs.endi
        rw [hFT]
        simp
      obtain ⟨hs, he⟩ := hse
      by_cases hmj : m = j
      · subst hmj
        split_ifs <;> first | (exfalso; omega) | ring1
      · by_cases hmj1 : m = j + 1
        · subst hmj1
          split_ifs <;> first | (exfalso; omega) | ring1
        · split_ifs <;> first | (exfalso; omega) | ring1
    · have hse : a.starti j = 0 ∧ a.endi j = j := by
        unfold KArgs.starti KArgs.endi
        rw [hFT]
        simp
      obtain ⟨hs, he⟩ := hse
      by_cases hmj : m = j
      · subst hmj
        split_ifs <;> first | (exfalso; omega) | ring1
      · by_cases hmj1 : m = j + 1
        · subst hmj1
          split_ifs <;> first | (exfalso; omega) | ring1
        · split_ifs <;> first | (exfalso; omega) | ring1
  · have hlt : a.endi j < a.starti j := by omega
    have hb3 : a.alignedStart j = a.starti j := alignedStart_of_lt a j hlt
    have hb4 : a.alignedEnd j = a.starti j := alignedEnd_of_lt a j hlt
    simp only [pairIter, pairDelta, scLoop_fst, scLoop_t2, scLoop_t3, pkLoop_fst,
      pkLoop_predux_p2, pkLoop_predux_p3, predux_pset1_zero, upd, Ico_start_len]
    rw [show a.alignedStart j + (a.endi j - a.alignedStart j) / a.ps * a.ps
          = a.alignedEnd j from rfl]
    rw [← sum_Ico_merge (fun i => cjPmul a.ca1 a.cb1 (a.A0 j i) (a.rhs i))
          (a.alignedStart j) (a.alignedEnd j) (a.endi j) hb2 (Or.inr (by omega))]
    rw [← sum_Ico_merge (fun i => cjPmul a.ca1 a.cb1 (a.A1 j i) (a.rhs i))
          (a.alignedStart j) (a.alignedEnd j) (a.endi j) hb2 (Or.inr (by omega))]
    cases hFT : a.FT <;> simp only [hFT, Bool.false_eq_true, if_true, if_false, upd]
    · have hse : a.starti j = j + 2 ∧ a.endi j = a.size := by
        unfold KArgs.starti KArgs.endi
        rw [hFT]
        simp
      obtain ⟨hs, he⟩ := hse
      by_cases hmj : m = j
      · subst hmj
        split_ifs <;> first | (exfalso; omega) | ring1
      · by_cases hmj1 : m = j + 1
        · subst hmj1
          split_ifs <;> first | (exfalso; omega) | ring1
        · split_ifs <;> first | (exfalso; omega) | ring1
    · have hse : a.starti j = 0 ∧ a.endi j = j := by
        unfold KArgs.starti KArgs.endi
        rw [hFT]
        simp
      obtain ⟨hs, he⟩ := hse
      exfalso
      omega

/-- Closed form of one fallback iteration: it adds `fbDelta` to the
accumulator. -/
theorem fbIter_closed (a : KArgs R) (j : ℕ) (res : ℕ → R) (m : ℕ) :
    fbIter a j res m = res m + fbDelta a j m := by
  cases hFT : a.FT <;>
  · simp only [fbIter, fbDelta, scLoop_fst, scLoop_t2, KArgs.fstarti, KArgs.fendi, hFT,
      Bool.false_eq_true, if_false, if_true, Ico_start_len, upd]
    by_cases hm : m = j
    · subst hm
      split_ifs <;> first | ring1 | (exfalso; omega)
    · split_ifs <;> first | ring1 | (exfalso; omega)

/-- Closed form of the whole kernel body: it adds `totalDelta` to the
accumulator. -/
theorem kernelRun_closed (a : KArgs R) (res : ℕ → R) (m : ℕ) :
    kernelRun a res m = res m + totalDelta a m := by
  unfold kernelRun totalDelta
  rw [iterN_closed (fbIter a) (fbDelta a) (fbIter_closed a)]
  rw [iterN_closed (pairIter a) (pairDelta a) (pairIter_closed a)]
  have h1 : (∑ k ∈ Finset.range a.numFb, fbDelta a (a.fstart + 1 * k) m) =
      ∑ k ∈ Finset.range a.numFb, fbDelta a (a.fstart + k) m := by
    apply Finset.sum_congr rfl
    intro k _
    rw [Nat.one_mul]
  rw [h1]
  ring

/-! ### Conjugation algebra -/

theorem conjIf_zero (c : Bool) : conjIf c (0 : R) = 0 := by
  cases c <;> simp [conjIf, ei_conj]

theorem cjPmul_zero_right (ca cb : Bool) (x : R) : cjPmul ca cb x 0 = 0 := by
  simp [cjPmul, conjIf_zero]

theorem ei_conj_id (hstar : ∀ x : R, star x = x) (x : R) : ei_conj x = x := hstar x

theorem conjIf_id (hstar : ∀ x : R, star x = x) (b : Bool) (x : R) : conjIf b x = x := by
  cases b <;> simp [conjIf, ei_conj, hstar]

theorem cjPmul_id (hstar : ∀ x : R, star x = x) (ca cb : Bool) (x y : R) :
    cjPmul ca cb x y = x * y := by
  simp [cjPmul, conjIf_id hstar]

theorem cjAlpha_id (a : KArgs R) (hstar : ∀ x : R, star x = x) : a.cjAlpha = a.alpha := by
  unfold KArgs.cjAlpha
  cases a.ConjugateRhs <;> simp [ei_conj, hstar]

theorem conjIf_of_star_fix {x : R} (h : ei_conj x = x) (b : Bool) : conjIf b x = x := by
  cases b <;> simp [conjIf, h]

/-- Composing the symmetry conjugation with the flag conjugation flips the
flag (for a complex scalar type). -/
theorem conjIf_compose_not (ic cl : Bool) (p : R) :
    conjIf ic (conjIf (ic && cl) p) = conjIf (ic && !cl) p := by
  cases ic <;> cases cl <;> simp [conjIf, ei_conj, star_star]

/-- Pulling the pre-applied `cjAlpha` back out of the operand-side
conjugation: `conjIf cb (cjAlpha * x) = alpha * conjIf cb x`. -/
theorem conjIf_cjAlpha_mul (cb : Bool) (alpha x : R) :
    conjIf cb ((if cb then ei_conj alpha else alpha) * x) = alpha * conjIf cb x := by
  cases cb <;> simp [conjIf, ei_conj, star_mul, star_star] <;> ring

/-- With `alpha = 0` the kernel's delta vanishes identically. -/
theorem totalDelta_alpha_zero (a : KArgs R) (h : a.alpha = 0) (m : ℕ) :
    totalDelta a m = 0 := by
  have hca : a.cjAlpha = 0 := by
    unfold KArgs.cjAlpha
    rw [h]
    cases a.ConjugateRhs <;> simp [ei_conj]
  unfold totalDelta
  have hp : ∀ k, k ∈ Finset.range a.numPairs → pairDelta a (a.jstart + 2 * k) m = 0 := by
    intro k _
    simp [pairDelta, hca, h, cjPmul_zero_right, conjIf_zero]
  have hf : ∀ k, k ∈ Finset.range a.numFb → fbDelta a (a.fstart + k) m = 0 := by
    intro k _
    simp [fbDelta, hca, h, cjPmul_zero_right, conjIf_zero]
  rw [Finset.sum_congr rfl hp, Finset.sum_congr rfl hf]
  simp

/-! ### Matching the kernel's per-use conjugations against the reference
matrix `Mmat` -/

/-- A direct-role read: the `cj0` conjugation applied to the stored element
at major index `c`, minor index `mm` equals the reference entry
`A[mm][c]`.  `hdiag` expresses that the stored diagonal is fixed by
conjugation (automatic for real scalars; for complex scalars it is the
Hermitian-diagonal precondition). -/
theorem ca0_read_eq_Mmat (a : KArgs R)
    (hdiag : ∀ i, i < a.size →
      ei_conj (a.lhs (i * a.lhsStride + i)) = a.lhs (i * a.lhsStride + i))
    (c mm : ℕ) (hcs : c < a.size) (hms : mm < a.size)
    (hside : if a.FT = true then mm ≤ c else c ≤ mm) :
    conjIf a.ca0 (a.lhs (c * a.lhsStride + mm)) =
      Mmat a.isComplex a.IsRowMajor a.IsLower a.ConjugateLhs a.lhs a.lhsStride mm c := by
  have hb1 : (a.ConjugateLhs != false) = a.ConjugateLhs := by
    cases a.ConjugateLhs <;> rfl
  have hb2 : (a.ConjugateLhs != true) = !a.ConjugateLhs := by
    cases a.ConjugateLhs <;> rfl
  unfold Mmat physRead inStored KArgs.ca0
  unfold KArgs.FT at hside
  cases hR : a.IsRowMajor <;> cases hL : a.IsLower <;>
    rw [hR] at hside <;> rw [hL] at hside <;> simp at hside <;>
    simp only [hR, hL, Bool.false_eq_true, Bool.true_eq_false, if_false, if_true, hb1, hb2]
  · -- column-major, upper: FirstTriangular, entry (mm, c) stored
    rw [if_pos hside]
  · -- column-major, lower: not FirstTriangular, entry (mm, c) stored
    rw [if_pos hside]
  · -- row-major, upper: not FirstTriangular, transposed-role storage
    by_cases heq : mm = c
    · subst heq
      rw [if_pos (le_refl mm)]
      rw [conjIf_of_star_fix (hdiag mm hms), conjIf_of_star_fix (hdiag mm hms)]
    · rw [if_neg (by omega)]
      rw [conjIf_compose_not]
  · -- row-major, lower: FirstTriangular, transposed-role storage
    by_cases heq : mm = c
    · subst heq
      rw [if_pos (le_refl mm)]
      rw [conjIf_of_star_fix (hdiag mm hms), conjIf_of_star_fix (hdiag mm hms)]
    · rw [if_neg (by omega)]
      rw [conjIf_compose_not]

/-- A transposed-role read: the `cj1` conjugation applied to the stored
element at major index `c`, minor index `i` equals the reference entry
`A[c][i]` (strictly off-diagonal). -/
theorem ca1_read_eq_Mmat (a : KArgs R) (c i : ℕ) (hcs : c < a.size) (his : i < a.size)
    (hside : if a.FT = true then i < c else c < i) :
    conjIf a.ca1 (a.lhs (c * a.lhsStride + i)) =
      Mmat a.isComplex a.IsRowMajor a.IsLower a.ConjugateLhs a.lhs a.lhsStride c i := by
  have hb1 : (a.ConjugateLhs != false) = a.ConjugateLhs := by
    cases a.ConjugateLhs <;> rfl
  have hb2 : (a.ConjugateLhs != true) = !a.ConjugateLhs := by
    cases a.ConjugateLhs <;> rfl
  unfold Mmat physRead inStored KArgs.ca1
  unfold KArgs.FT at hside
  cases hR : a.IsRowMajor <;> cases hL : a.IsLower <;>
    rw [hR] at hside <;> rw [hL] at hside <;> simp at hside <;>
    simp only [hR, hL, Bool.false_eq_true, Bool.true_eq_false, if_false, if_true,
      Bool.not_false, Bool.not_true, hb1, hb2]
  · -- column-major, upper: FirstTriangular, `i < c`: entry (c, i) derived
    rw [if_neg (by omega)]
    rw [conjIf_compose_not]
  · -- column-major, lower: `c < i`: entry (c, i) derived
    rw [if_neg (by omega)]
    rw [conjIf_compose_not]
  · -- row-major, upper: `c < i`: entry (c, i) stored
    rw [if_pos (by omega)]
  · -- row-major, lower: `i < c`: entry (c, i) stored
    rw [if_pos (by omega)]

/-- The full direct-role term: `cj0.pmul(stored, cjAlpha * x[c])` equals the
reference summand `alpha * A[mm][c] * x'[c]`. -/
theorem direct_term_eq (a : KArgs R)
    (hdiag : ∀ i, i < a.size →
      ei_conj (a.lhs (i * a.lhsStride + i)) = a.lhs (i * a.lhsStride + i))
    (c mm : ℕ) (hcs : c < a.size) (hms : mm < a.size)
    (hside : if a.FT = true then mm ≤ c else c ≤ mm) :
    cjPmul a.ca0 a.cb0 (a.lhs (c * a.lhsStride + mm)) (a.cjAlpha * a.rhs c) =
      a.alpha * (Mmat a.isComplex a.IsRowMajor a.IsLower a.ConjugateLhs a.lhs a.lhsStride mm c *
        conjIf a.ConjugateRhs (a.rhs c)) := by
  unfold cjPmul
  have h2 : conjIf a.cb0 (a.cjAlpha * a.rhs c) = a.alpha * conjIf a.ConjugateRhs (a.rhs c) := by
    unfold KArgs.cb0 KArgs.cjAlpha
    exact conjIf_cjAlpha_mul a.ConjugateRhs a.alpha (a.rhs c)
  rw [h2, ca0_read_eq_Mmat a hdiag c mm hcs hms hside]
  ring

/-- The full transposed-role term: `cj1.pmul(stored, x[i])` equals the
reference summand `A[c][i] * x'[i]`. -/
theorem trans_term_eq (a : KArgs R) (c i : ℕ) (hcs : c < a.size) (his : i < a.size)
    (hside : if a.FT = true then i < c else c < i) :
    cjPmul a.ca1 a.cb1 (a.lhs (c * a.lhsStride + i)) (a.rhs i) =
      Mmat a.isComplex a.IsRowMajor a.IsLower a.ConjugateLhs a.lhs a.lhsStride c i *
        conjIf a.ConjugateRhs (a.rhs i) := by
  unfold cjPmul
  rw [ca1_read_eq_Mmat a c i hcs his hside]
  rfl

/-! ### Per-column decomposition of the reference delta -/

/-- `colDeltaRef` contributes nothing above `size`. -/
theorem colDeltaRef_zero_right (a : KArgs R) (c m : ℕ) (hc : c < a.size)
    (hm : a.size ≤ m) : colDeltaRef a c m = 0 := by
  cases hFT : a.FT <;>
  · simp only [colDeltaRef, hFT, Bool.false_eq_true, if_true, if_false]
    rw [if_neg (by omega), if_neg (by omega)]
    ring

/-- Summing the per-column reference deltas over all columns yields the
reference row sum. -/
theorem sum_colDeltaRef (a : KArgs R) (m : ℕ) (hm : m < a.size) :
    (∑ c ∈ Finset.range a.size, colDeltaRef a c m) =
      a.alpha * ∑ c ∈ Finset.range a.size,
        Mmat a.isComplex a.IsRowMajor a.IsLower a.ConjugateLhs a.lhs a.lhsStride m c *
          conjIf a.ConjugateRhs (a.rhs c) := by
  unfold colDeltaRef
  rw [Finset.sum_add_distrib]
  rw [Finset.sum_ite_eq (Finset.range a.size) m
    (fun c => a.alpha * ∑ i ∈ (if a.FT then Finset.Ico 0 c else Finset.Ico (c + 1) a.size),
      Mmat a.isComplex a.IsRowMajor a.IsLower a.ConjugateLhs a.lhs a.lhsStride c i *
        conjIf a.ConjugateRhs (a.rhs i))]
  rw [if_pos (Finset.mem_range.mpr hm)]
  cases hFT : a.FT <;> simp only [hFT, Bool.false_eq_true, if_true, if_false]
  · -- not FirstTriangular: direct columns are `[0, m]`, transposed are `(m, size)`
    have h1 : (∑ c ∈ Finset.range a.size,
        if c ≤ m ∧ m < a.size then
          a.alpha * Mmat a.isComplex a.IsRowMajor a.IsLower a.ConjugateLhs a.lhs a.lhsStride m c *
            conjIf a.ConjugateRhs (a.rhs c)
        else 0) =
        ∑ c ∈ Finset.Ico 0 (m + 1),
          a.alpha *
            (Mmat a.isComplex a.IsRowMajor a.IsLower a.ConjugateLhs a.lhs a.lhsStride m c *
              conjIf a.ConjugateRhs (a.rhs c)) := by
      rw [Finset.range_eq_Ico]
      rw [← Finset.sum_Ico_consecutive _ (Nat.zero_le (m + 1)) (by omega : m + 1 ≤ a.size)]
      have hA : (∑ c ∈ Finset.Ico 0 (m + 1),
          if c ≤ m ∧ m < a.size then
            a.alpha * Mmat a.isComplex a.IsRowMajor a.IsLower a.ConjugateLhs a.lhs a.lhsStride m c *
              conjIf a.ConjugateRhs (a.rhs c)
          else 0) =
          ∑ c ∈ Finset.Ico 0 (m + 1),
            a.alpha *
              (Mmat a.isComplex a.IsRowMajor a.IsLower a.ConjugateLhs a.lhs a.lhsStride m c *
                conjIf a.ConjugateRhs (a.rhs c)) := by
        apply Finset.sum_congr rfl
        intro c hc
        rw [Finset.mem_Ico] at hc
        rw [if_pos (by omega)]
        ring
      have hB : (∑ c ∈ Finset.Ico (m + 1) a.size,
          if c ≤ m ∧ m < a.size then
            a.alpha * Mmat a.isComplex a.IsRowMajor a.IsLower a.ConjugateLhs a.lhs a.lhsStride m c *
              conjIf a.ConjugateRhs (a.rhs c)
          else 0) = 0 := by
        apply Finset.sum_eq_zero
        intro c hc
        rw [Finset.mem_Ico] at hc
        rw [if_neg (by omega)]
      rw [hA, hB, add_zero]
    rw [h1]
    rw [Finset.range_eq_Ico]
    rw [← Finset.sum_Ico_consecutive
      (fun c => Mmat a.isComplex a.IsRowMajor a.IsLower a.ConjugateLhs a.lhs a.lhsStride m c *
        conjIf a.ConjugateRhs (a.rhs c)) (Nat.zero_le (m + 1)) (by omega : m + 1 ≤ a.size)]
    rw [mul_add]
    simp only [Finset.mul_sum]
    try ring
  · -- FirstTriangular: direct columns are `[m, size)`, transposed are `[0, m)`
    have h1 : (∑ c ∈ Finset.range a.size,
        if m ≤ c then
          a.alpha * Mmat a.isComplex a.IsRowMajor a.IsLower a.ConjugateLhs a.lhs a.lhsStride m c *
            conjIf a.ConjugateRhs (a.rhs c)
        else 0) =
        ∑ c ∈ Finset.Ico m a.size,
          a.alpha *
            (Mmat a.isComplex a.IsRowMajor a.IsLower a.ConjugateLhs a.lhs a.lhsStride m c *
              conjIf a.ConjugateRhs (a.rhs c)) := by
      rw [Finset.range_eq_Ico]
      rw [← Finset.sum_Ico_consecutive _ (Nat.zero_le m) (by omega : m ≤ a.size)]
      have hA : (∑ c ∈ Finset.Ico 0 m,
          if m ≤ c then
            a.alpha * Mmat a.isComplex a.IsRowMajor a.IsLower a.ConjugateLhs a.lhs a.lhsStride m c *
              conjIf a.ConjugateRhs (a.rhs c)
          else 0) = 0 := by
        apply Finset.sum_eq_zero
        intro c hc
        rw [Finset.mem_Ico] at hc
        rw [if_neg (by omega)]
      have hB : (∑ c ∈ Finset.Ico m a.size,
          if m ≤ c then
            a.alpha * Mmat a.isComplex a.IsRowMajor a.IsLower a.ConjugateLhs a.lhs a.lhsStride m c *
              conjIf a.ConjugateRhs (a.rhs c)
          else 0) =
          ∑ c ∈ Finset.Ico m a.size,
            a.alpha *
              (Mmat a.isComplex a.IsRowMajor a.IsLower a.ConjugateLhs a.lhs a.lhsStride m c *
                conjIf a.ConjugateRhs (a.rhs c)) := by
        apply Finset.sum_congr rfl
        intro c hc
        rw [Finset.mem_Ico] at hc
        rw [if_pos (by omega)]
        ring
      rw [hA, hB, zero_add]
    rw [h1]
    rw [Finset.range_eq_Ico]
    rw [← Finset.sum_Ico_consecutive
      (fun c => Mmat a.isComplex a.IsRowMajor a.IsLower a.ConjugateLhs a.lhs a.lhsStride m c *
        conjIf a.ConjugateRhs (a.rhs c)) (Nat.zero_le m) (by omega : m ≤ a.size)]
    rw [mul_add]
    simp only [Finset.mul_sum]
    try ring

/-- Summing the per-column reference deltas gives the reference result
delta (zero above `size`). -/
theorem sum_colDeltaRef_total (a : KArgs R) (m : ℕ) :
    (∑ c ∈ Finset.range a.size, colDeltaRef a c m) =
      if m < a.size then
        a.alpha * ∑ c ∈ Finset.range a.size,
          Mmat a.isComplex a.IsRowMajor a.IsLower a.ConjugateLhs a.lhs a.lhsStride m c *
            conjIf a.ConjugateRhs (a.rhs c)
      else 0 := by
  by_cases hm : m < a.size
  · rw [if_pos hm]
    exact sum_colDeltaRef a m hm
  · rw [if_neg hm]
    exact Finset.sum_eq_zero fun c hc =>
      colDeltaRef_zero_right a c m (Finset.mem_range.mp hc) (by omega)

/-- A sum of consecutive index pairs equals the sum over the joined
interval. -/
theorem sum_pairs (f : ℕ → R) (s : ℕ) :
    ∀ n : ℕ, (∑ k ∈ Finset.range n, (f (s + 2 * k) + f (s + 2 * k + 1))) =
      ∑ c ∈ Finset.Ico s (s + 2 * n), f c := by
  intro n
  induction n with
  | zero => simp
  | succ n ih =>
    rw [Finset.sum_range_succ, ih]
    have h1 : s + 2 * (n + 1) = (s + 2 * n + 1) + 1 := by ring
    rw [h1]
    rw [Finset.sum_Ico_succ_top (by omega)]
    rw [Finset.sum_Ico_succ_top (by omega)]
    ring

/-- One fallback column adds exactly the per-column reference delta. -/
theorem fbDelta_eq_colDeltaRef (a : KArgs R)
    (hdiag : ∀ i, i < a.size →
      ei_conj (a.lhs (i * a.lhsStride + i)) = a.lhs (i * a.lhsStride + i))
    (j : ℕ) (hj : j < a.size) (m : ℕ) :
    fbDelta a j m = colDeltaRef a j m := by
  cases hFT : a.FT
  · -- not FirstTriangular: inner range `[j+1, size)`, direct side `c ≤ m`
    have hs : a.fstarti j = j + 1 := by
      unfold KArgs.fstarti
      rw [hFT]
      simp
    have he : a.fendi j = a.size := by
      unfold KArgs.fendi
      rw [hFT]
      simp
    have hsum : (∑ i ∈ Finset.Ico (j + 1) a.size,
        cjPmul a.ca1 a.cb1 (a.lhs (j * a.lhsStride + i)) (a.rhs i)) =
        ∑ i ∈ Finset.Ico (j + 1) a.size,
          Mmat a.isComplex a.IsRowMajor a.IsLower a.ConjugateLhs a.lhs a.lhsStride j i *
            conjIf a.ConjugateRhs (a.rhs i) := by
      apply Finset.sum_congr rfl
      intro i hi
      rw [Finset.mem_Ico] at hi
      exact trans_term_eq a j i hj hi.2 (by rw [hFT, if_neg Bool.false_ne_true]; omega)
    have hdir : ∀ mm, j ≤ mm → mm < a.size →
        cjPmul a.ca0 a.cb0 (a.lhs (j * a.lhsStride + mm)) (a.cjAlpha * a.rhs j) =
          a.alpha *
            (Mmat a.isComplex a.IsRowMajor a.IsLower a.ConjugateLhs a.lhs a.lhsStride mm j *
              conjIf a.ConjugateRhs (a.rhs j)) := by
      intro mm h1 h2
      exact direct_term_eq a hdiag j mm hj h2 (by rw [hFT, if_neg Bool.false_ne_true]; omega)
    simp only [fbDelta, colDeltaRef, KArgs.A0, hFT, hs, he, Bool.false_eq_true, if_false]
    rw [hsum]
    by_cases hm : m = j
    · subst hm
      rw [if_neg (show ¬(m + 1 ≤ m ∧ m < a.size) by omega)]
      rw [if_pos (rfl : m = m)]
      rw [if_pos (show m ≤ m ∧ m < a.size from ⟨le_refl m, hj⟩)]
      rw [if_pos (rfl : m = m)]
      rw [hdir m (le_refl m) hj]
      ring
    · rw [if_neg hm, if_neg hm]
      by_cases hin : j + 1 ≤ m ∧ m < a.size
      · rw [if_pos hin, if_pos (by omega)]
        rw [hdir m (by omega) hin.2]
        ring
      · rw [if_neg hin, if_neg (by omega)]
        try ring
  · -- FirstTriangular: inner range `[0, j)`, direct side `m ≤ c`
    have hs : a.fstarti j = 0 := by
      unfold KArgs.fstarti
      rw [hFT]
      simp
    have he : a.fendi j = j := by
      unfold KArgs.fendi
      rw [hFT]
      simp
    have hsum : (∑ i ∈ Finset.Ico 0 j,
        cjPmul a.ca1 a.cb1 (a.lhs (j * a.lhsStride + i)) (a.rhs i)) =
        ∑ i ∈ Finset.Ico 0 j,
          Mmat a.isComplex a.IsRowMajor a.IsLower a.ConjugateLhs a.lhs a.lhsStride j i *
            conjIf a.ConjugateRhs (a.rhs i) := by
      apply Finset.sum_congr rfl
      intro i hi
      rw [Finset.mem_Ico] at hi
      exact trans_term_eq a j i hj (by omega) (by rw [hFT, if_pos rfl]; omega)
    have hdir : ∀ mm, mm ≤ j →
        cjPmul a.ca0 a.cb0 (a.lhs (j * a.lhsStride + mm)) (a.cjAlpha * a.rhs j) =
          a.alpha *
            (Mmat a.isComplex a.IsRowMajor a.IsLower a.ConjugateLhs a.lhs a.lhsStride mm j *
              conjIf a.ConjugateRhs (a.rhs j)) := by
      intro mm h1
      exact direct_term_eq a hdiag j mm hj (by omega) (by rw [hFT, if_pos rfl]; omega)
    simp only [fbDelta, colDeltaRef, KArgs.A0, hFT, hs, he, if_true]
    rw [hsum]
    by_cases hm : m = j
    · subst hm
      rw [if_neg (show ¬(0 ≤ m ∧ m < m) by omega)]
      rw [if_pos (rfl : m = m)]
      rw [if_pos (le_refl m)]
      rw [if_pos (rfl : m = m)]
      rw [hdir m (le_refl m)]
      ring
    · rw [if_neg hm, if_neg hm]
      by_cases hin : 0 ≤ m ∧ m < j
      · rw [if_pos hin, if_pos (by omega)]
        rw [hdir m (by omega)]
        ring
      · rw [if_neg hin, if_neg (by omega)]
        try ring

/-- Merging two consecutive interval indicators carrying the same term. -/
theorem ite_add_merge (x y z m : ℕ) (T : R) (h1 : x ≤ y) (h2 : y ≤ z) :
    ((if x ≤ m ∧ m < y then T else 0) + if y ≤ m ∧ m < z then T else 0) =
      if x ≤ m ∧ m < z then T else 0 := by
  split_ifs <;> first | (exfalso; omega) | ring1

set_option maxHeartbeats 3200000 in
/-- For real scalars (conjugation is the identity) one two-column blocked
iteration adds exactly the per-column reference deltas of its two
columns. -/
theorem pairDelta_eq_colDeltaRef (a : KArgs R) (hstar : ∀ x : R, star x = x)
    (j : ℕ) (hj : j + 1 < a.size) (m : ℕ) :
    pairDelta a j m = colDeltaRef a j m + colDeltaRef a (j + 1) m := by
  have hdiag : ∀ i, i < a.size →
      ei_conj (a.lhs (i * a.lhsStride + i)) = a.lhs (i * a.lhsStride + i) :=
    fun i _ => hstar _
  have hjs : j < a.size := by omega
  have hb1 := starti_le_alignedStart a j
  cases hFT : a.FT
  · -- not FirstTriangular: inner range `[j+2, size)`
    have hs : a.starti j = j + 2 := by
      unfold KArgs.starti
      rw [hFT]
      simp
    have he : a.endi j = a.size := by
      unfold KArgs.endi
      rw [hFT]
      simp
    have hb3 : a.alignedStart j ≤ a.endi j := by
      apply alignedStart_le_endi
      rw [hs, he]
      omega
    -- direct-role conversions (if-level, both columns)
    have hifd0 : (if j ≤ m ∧ m < a.size then
        a.alpha * Mmat a.isComplex a.IsRowMajor a.IsLower a.ConjugateLhs a.lhs a.lhsStride m j *
          conjIf a.ConjugateRhs (a.rhs j)
        else 0) =
        (if j ≤ m ∧ m < a.size then
          cjPmul a.ca0 a.cb0 (a.lhs (j * a.lhsStride + m)) (a.cjAlpha * a.rhs j) else 0) := by
      by_cases h : j ≤ m ∧ m < a.size
      · rw [if_pos h, if_pos h,
          direct_term_eq a hdiag j m hjs h.2 (by rw [hFT, if_neg Bool.false_ne_true]; omega)]
        ring
      · rw [if_neg h, if_neg h]
    have hifd1 : (if j + 1 ≤ m ∧ m < a.size then
        a.alpha *
          Mmat a.isComplex a.IsRowMajor a.IsLower a.ConjugateLhs a.lhs a.lhsStride m (j + 1) *
          conjIf a.ConjugateRhs (a.rhs (j + 1))
        else 0) =
        (if j + 1 ≤ m ∧ m < a.size then
          cjPmul a.ca0 a.cb0 (a.lhs ((j + 1) * a.lhsStride + m)) (a.cjAlpha * a.rhs (j + 1))
        else 0) := by
      by_cases h : j + 1 ≤ m ∧ m < a.size
      · rw [if_pos h, if_pos h,
          direct_term_eq a hdiag (j + 1) m hj h.2
            (by rw [hFT, if_neg Bool.false_ne_true]; omega)]
        ring
      · rw [if_neg h, if_neg h]
    -- transposed-role conversions of the kernel-side sums into reference form
    have hS0h : (∑ i ∈ Finset.Ico (a.starti j) (a.alignedStart j),
        ei_conj (a.lhs (j * a.lhsStride + i)) * a.rhs i) =
        ∑ i ∈ Finset.Ico (a.starti j) (a.alignedStart j),
          Mmat a.isComplex a.IsRowMajor a.IsLower a.ConjugateLhs a.lhs a.lhsStride j i *
            conjIf a.ConjugateRhs (a.rhs i) := by
      apply Finset.sum_congr rfl
      intro i hi
      rw [Finset.mem_Ico] at hi
      rw [ei_conj_id hstar]
      rw [← cjPmul_id hstar a.ca1 a.cb1]
      exact trans_term_eq a j i hjs (by omega)
        (by rw [hFT, if_neg Bool.false_ne_true]; omega)
    have hS1h : (∑ i ∈ Finset.Ico (a.starti j) (a.alignedStart j),
        ei_conj (a.lhs ((j + 1) * a.lhsStride + i)) * a.rhs i) =
        ∑ i ∈ Finset.Ico (a.starti j) (a.alignedStart j),
          Mmat a.isComplex a.IsRowMajor a.IsLower a.ConjugateLhs a.lhs a.lhsStride (j + 1) i *
            conjIf a.ConjugateRhs (a.rhs i) := by
      apply Finset.sum_congr rfl
      intro i hi
      rw [Finset.mem_Ico] at hi
      rw [ei_conj_id hstar]
      rw [← cjPmul_id hstar a.ca1 a.cb1]
      exact trans_term_eq a (j + 1) i hj (by omega)
        (by rw [hFT, if_neg Bool.false_ne_true]; omega)
    have hS0m : (∑ i ∈ Finset.Ico (a.alignedStart j) (a.endi j),
        cjPmul a.ca1 a.cb1 (a.lhs (j * a.lhsStride + i)) (a.rhs i)) =
        ∑ i ∈ Finset.Ico (a.alignedStart j) (a.endi j),
          Mmat a.isComplex a.IsRowMajor a.IsLower a.ConjugateLhs a.lhs a.lhsStride j i *
            conjIf a.ConjugateRhs (a.rhs i) := by
      apply Finset.sum_congr rfl
      intro i hi
      rw [Finset.mem_Ico] at hi
      exact trans_term_eq a j i hjs (by omega)
        (by rw [hFT, if_neg Bool.false_ne_true]; omega)
    have hS1m : (∑ i ∈ Finset.Ico (a.alignedStart j) (a.endi j),
        cjPmul a.ca1 a.cb1 (a.lhs ((j + 1) * a.lhsStride + i)) (a.rhs i)) =
        ∑ i ∈ Finset.Ico (a.alignedStart j) (a.endi j),
          Mmat a.isComplex a.IsRowMajor a.IsLower a.ConjugateLhs a.lhs a.lhsStride (j + 1) i *
            conjIf a.ConjugateRhs (a.rhs i) := by
      apply Finset.sum_congr rfl
      intro i hi
      rw [Finset.mem_Ico] at hi
      exact trans_term_eq a (j + 1) i hj (by omega)
        (by rw [hFT, if_neg Bool.false_ne_true]; omega)
    have hseed0 : cjPmul a.ca1 a.cb1 (a.lhs (j * a.lhsStride + (j + 1))) (a.rhs (j + 1)) =
        Mmat a.isComplex a.IsRowMajor a.IsLower a.ConjugateLhs a.lhs a.lhsStride j (j + 1) *
          conjIf a.ConjugateRhs (a.rhs (j + 1)) :=
      trans_term_eq a j (j + 1) hjs hj (by rw [hFT, if_neg Bool.false_ne_true]; omega)
    -- reference-side transposed sums split at the phase boundary
    have htr0 : (∑ i ∈ Finset.Ico (j + 1) a.size,
        Mmat a.isComplex a.IsRowMajor a.IsLower a.ConjugateLhs a.lhs a.lhsStride j i *
          conjIf a.ConjugateRhs (a.rhs i)) =
        Mmat a.isComplex a.IsRowMajor a.IsLower a.ConjugateLhs a.lhs a.lhsStride j (j + 1) *
          conjIf a.ConjugateRhs (a.rhs (j + 1)) +
        ((∑ i ∈ Finset.Ico (a.starti j) (a.alignedStart j),
            Mmat a.isComplex a.IsRowMajor a.IsLower a.ConjugateLhs a.lhs a.lhsStride j i *
              conjIf a.ConjugateRhs (a.rhs i)) +
          ∑ i ∈ Finset.Ico (a.alignedStart j) (a.endi j),
            Mmat a.isComplex a.IsRowMajor a.IsLower a.ConjugateLhs a.lhs a.lhsStride j i *
              conjIf a.ConjugateRhs (a.rhs i)) := by
      rw [Finset.sum_eq_sum_Ico_succ_bot (show j + 1 < a.size from hj)]
      congr 1
      rw [sum_Ico_merge _ _ _ _ hb1 (Or.inl hb3)]
      rw [hs, he]
    have htr1 : (∑ i ∈ Finset.Ico (j + 1 + 1) a.size,
        Mmat a.isComplex a.IsRowMajor a.IsLower a.ConjugateLhs a.lhs a.lhsStride (j + 1) i *
          conjIf a.ConjugateRhs (a.rhs i)) =
        (∑ i ∈ Finset.Ico (a.starti j) (a.alignedStart j),
            Mmat a.isComplex a.IsRowMajor a.IsLower a.ConjugateLhs a.lhs a.lhsStride (j + 1) i *
              conjIf a.ConjugateRhs (a.rhs i)) +
          ∑ i ∈ Finset.Ico (a.alignedStart j) (a.endi j),
            Mmat a.isComplex a.IsRowMajor a.IsLower a.ConjugateLhs a.lhs a.lhsStride (j + 1) i *
              conjIf a.ConjugateRhs (a.rhs i) := by
      rw [sum_Ico_merge _ _ _ _ hb1 (Or.inl hb3)]
      rw [hs, he]
    -- head direct term under trivial conjugation
    have hH : (a.cjAlpha * a.rhs j * a.lhs (j * a.lhsStride + m) +
        a.cjAlpha * a.rhs (j + 1) * a.lhs ((j + 1) * a.lhsStride + m)) =
        cjPmul a.ca0 a.cb0 (a.lhs (j * a.lhsStride + m)) (a.cjAlpha * a.rhs j) +
          cjPmul a.ca0 a.cb0 (a.lhs ((j + 1) * a.lhsStride + m)) (a.cjAlpha * a.rhs (j + 1)) := by
      rw [cjPmul_id hstar, cjPmul_id hstar]
      ring
    simp only [pairDelta, colDeltaRef, KArgs.A0, KArgs.A1, hFT, Bool.false_eq_true,
      if_false, if_true]
    rw [hH]
    rw [ite_add_merge (a.starti j) (a.alignedStart j) (a.endi j) m _ hb1 hb3]
    rw [hS0h, hS1h, hS0m, hS1m, hseed0, hifd0, hifd1, htr0, htr1]
    by_cases hmj : m = j
    · subst hmj
      split_ifs <;> first | (exfalso; omega) | ring1
    · by_cases hmj1 : m = j + 1
      · subst hmj1
        split_ifs <;> first | (exfalso; omega) | ring1
      · split_ifs <;> first | (exfalso; omega) | ring1
  · -- FirstTriangular: inner range `[0, j)`
    have hs : a.starti j = 0 := by
      unfold KArgs.starti
      rw [hFT]
      simp
    have he : a.endi j = j := by
      unfold KArgs.endi
      rw [hFT]
      simp
    have hb3 : a.alignedStart j ≤ a.endi j := by
      apply alignedStart_le_endi
      rw [hs, he]
      omega
    have hifd0 : (if m ≤ j then
        a.alpha * Mmat a.isComplex a.IsRowMajor a.IsLower a.ConjugateLhs a.lhs a.lhsStride m j *
          conjIf a.ConjugateRhs (a.rhs j)
        else 0) =
        (if m ≤ j then
          cjPmul a.ca0 a.cb0 (a.lhs (j * a.lhsStride + m)) (a.cjAlpha * a.rhs j) else 0) := by
      by_cases h : m ≤ j
      · rw [if_pos h, if_pos h,
          direct_term_eq a hdiag j m hjs (by omega) (by rw [hFT, if_pos rfl]; omega)]
        ring
      · rw [if_neg h, if_neg h]
    have hifd1 : (if m ≤ j + 1 then
        a.alpha *
          Mmat a.isComplex a.IsRowMajor a.IsLower a.ConjugateLhs a.lhs a.lhsStride m (j + 1) *
          conjIf a.ConjugateRhs (a.rhs (j + 1))
        else 0) =
        (if m ≤ j + 1 then
          cjPmul a.ca0 a.cb0 (a.lhs ((j + 1) * a.lhsStride + m)) (a.cjAlpha * a.rhs (j + 1))
        else 0) := by
      by_cases h : m ≤ j + 1
      · rw [if_pos h, if_pos h,
          direct_term_eq a hdiag (j + 1) m hj (by omega) (by rw [hFT, if_pos rfl]; omega)]
        ring
      · rw [if_neg h, if_neg h]
    have hS0h : (∑ i ∈ Finset.Ico (a.starti j) (a.alignedStart j),
        ei_conj (a.lhs (j * a.lhsStride + i)) * a.rhs i) =
        ∑ i ∈ Finset.Ico (a.starti j) (a.alignedStart j),
          Mmat a.isComplex a.IsRowMajor a.IsLower a.ConjugateLhs a.lhs a.lhsStride j i *
            conjIf a.ConjugateRhs (a.rhs i) := by
      apply Finset.sum_congr rfl
      intro i hi
      rw [Finset.mem_Ico] at hi
      rw [ei_conj_id hstar]
      rw [← cjPmul_id hstar a.ca1 a.cb1]
      exact trans_term_eq a j i hjs (by omega) (by rw [hFT, if_pos rfl]; omega)
    have hS1h : (∑ i ∈ Finset.Ico (a.starti j) (a.alignedStart j),
        ei_conj (a.lhs ((j + 1) * a.lhsStride + i)) * a.rhs i) =
        ∑ i ∈ Finset.Ico (a.starti j) (a.alignedStart j),
          Mmat a.isComplex a.IsRowMajor a.IsLower a.ConjugateLhs a.lhs a.lhsStride (j + 1) i *
            conjIf a.ConjugateRhs (a.rhs i) := by
      apply Finset.sum_congr rfl
      intro i hi
      rw [Finset.mem_Ico] at hi
      rw [ei_conj_id hstar]
      rw [← cjPmul_id hstar a.ca1 a.cb1]
      exact trans_term_eq a (j + 1) i hj (by omega) (by rw [hFT, if_pos rfl]; omega)
    have hS0m : (∑ i ∈ Finset.Ico (a.alignedStart j) (a.endi j),
        cjPmul a.ca1 a.cb1 (a.lhs (j * a.lhsStride + i)) (a.rhs i)) =
        ∑ i ∈ Finset.Ico (a.alignedStart j) (a.endi j),
          Mmat a.isComplex a.IsRowMajor a.IsLower a.ConjugateLhs a.lhs a.lhsStride j i *
            conjIf a.ConjugateRhs (a.rhs i) := by
      apply Finset.sum_congr rfl
      intro i hi
      rw [Finset.mem_Ico] at hi
      exact trans_term_eq a j i hjs (by omega) (by rw [hFT, if_pos rfl]; omega)
    have hS1m : (∑ i ∈ Finset.Ico (a.alignedStart j) (a.endi j),
        cjPmul a.ca1 a.cb1 (a.lhs ((j + 1) * a.lhsStride + i)) (a.rhs i)) =
        ∑ i ∈ Finset.Ico (a.alignedStart j) (a.endi j),
          Mmat a.isComplex a.IsRowMajor a.IsLower a.ConjugateLhs a.lhs a.lhsStride (j + 1) i *
            conjIf a.ConjugateRhs (a.rhs i) := by
      apply Finset.sum_congr rfl
      intro i hi
      rw [Finset.mem_Ico] at hi
      exact trans_term_eq a (j + 1) i hj (by omega) (by rw [hFT, if_pos rfl]; omega)
    have hseed3 : cjPmul a.ca1 a.cb1 (a.lhs ((j + 1) * a.lhsStride + j)) (a.rhs j) =
        Mmat a.isComplex a.IsRowMajor a.IsLower a.ConjugateLhs a.lhs a.lhsStride (j + 1) j *
          conjIf a.ConjugateRhs (a.rhs j) :=
      trans_term_eq a (j + 1) j hj hjs (by rw [hFT, if_pos rfl]; omega)
    have htr0 : (∑ i ∈ Finset.Ico 0 j,
        Mmat a.isComplex a.IsRowMajor a.IsLower a.ConjugateLhs a.lhs a.lhsStride j i *
          conjIf a.ConjugateRhs (a.rhs i)) =
        (∑ i ∈ Finset.Ico (a.starti j) (a.alignedStart j),
            Mmat a.isComplex a.IsRowMajor a.IsLower a.ConjugateLhs a.lhs a.lhsStride j i *
              conjIf a.ConjugateRhs (a.rhs i)) +
          ∑ i ∈ Finset.Ico (a.alignedStart j) (a.endi j),
            Mmat a.isComplex a.IsRowMajor a.IsLower a.ConjugateLhs a.lhs a.lhsStride j i *
              conjIf a.ConjugateRhs (a.rhs i) := by
      rw [sum_Ico_merge _ _ _ _ hb1 (Or.inl hb3)]
      rw [hs, he]
    have htr1 : (∑ i ∈ Finset.Ico 0 (j + 1),
        Mmat a.isComplex a.IsRowMajor a.IsLower a.ConjugateLhs a.lhs a.lhsStride (j + 1) i *
          conjIf a.ConjugateRhs (a.rhs i)) =
        ((∑ i ∈ Finset.Ico (a.starti j) (a.alignedStart j),
            Mmat a.isComplex a.IsRowMajor a.IsLower a.ConjugateLhs a.lhs a.lhsStride (j + 1) i *
              conjIf a.ConjugateRhs (a.rhs i)) +
          ∑ i ∈ Finset.Ico (a.alignedStart j) (a.endi j),
            Mmat a.isComplex a.IsRowMajor a.IsLower a.ConjugateLhs a.lhs a.lhsStride (j + 1) i *
              conjIf a.ConjugateRhs (a.rhs i)) +
          Mmat a.isComplex a.IsRowMajor a.IsLower a.ConjugateLhs a.lhs a.lhsStride (j + 1) j *
            conjIf a.ConjugateRhs (a.rhs j) := by
      rw [Finset.sum_Ico_succ_top (Nat.zero_le j)]
      congr 1
      rw [sum_Ico_merge _ _ _ _ hb1 (Or.inl hb3)]
      rw [hs, he]
    have hH : (a.cjAlpha * a.rhs j * a.lhs (j * a.lhsStride + m) +
        a.cjAlpha * a.rhs (j + 1) * a.lhs ((j + 1) * a.lhsStride + m)) =
        cjPmul a.ca0 a.cb0 (a.lhs (j * a.lhsStride + m)) (a.cjAlpha * a.rhs j) +
          cjPmul a.ca0 a.cb0 (a.lhs ((j + 1) * a.lhsStride + m)) (a.cjAlpha * a.rhs (j + 1)) := by
      rw [cjPmul_id hstar, cjPmul_id hstar]
      ring
    simp only [pairDelta, colDeltaRef, KArgs.A0, KArgs.A1, hFT, if_true]
    rw [hH]
    rw [ite_add_merge (a.starti j) (a.alignedStart j) (a.endi j) m _ hb1 hb3]
    rw [hS0h, hS1h, hS0m, hS1m, hseed3, hifd0, hifd1, htr0, htr1]
    by_cases hmj : m = j
    · subst hmj
      split_ifs <;> first | (exfalso; omega) | ring1
    · by_cases hmj1 : m = j + 1
      · subst hmj1
        split_ifs <;> first | (exfalso; omega) | ring1
      · split_ifs <;> first | (exfalso; omega) | ring1

/-! ### Congruence: the kernel reads only the stored triangle of the matrix
and the first `size` logical elements of the operand -/

/-- One fallback iteration's delta depends on the matrix only through the
stored-triangle reads and on the operand only below `size`. -/
theorem fbDelta_congr (a : KArgs R) (lhs2 rhs2 : ℕ → R)
    (hagree : ∀ c i, c < a.size → i < a.size →
      (if a.FT = true then i ≤ c else c ≤ i) →
      a.lhs (c * a.lhsStride + i) = lhs2 (c * a.lhsStride + i))
    (hrhs : ∀ k, k < a.size → a.rhs k = rhs2 k)
    (j : ℕ) (hj : j < a.size) (m : ℕ) :
    fbDelta a j m = fbDelta { a with lhs := lhs2, rhs := rhs2 } j m := by
  have hrj : a.rhs j = rhs2 j := hrhs j hj
  have hdiagA : a.lhs (j * a.lhsStride + j) = lhs2 (j * a.lhsStride + j) := by
    apply hagree j j hj hj
    cases hFT : a.FT <;> simp
  simp only [fbDelta, KArgs.A0]
  have hFT2 : ({ a with lhs := lhs2, rhs := rhs2 } : KArgs R).FT = a.FT := rfl
  have hfs2 : ({ a with lhs := lhs2, rhs := rhs2 } : KArgs R).fstarti j = a.fstarti j := rfl
  have hfe2 : ({ a with lhs := lhs2, rhs := rhs2 } : KArgs R).fendi j = a.fendi j := rfl
  have hca0 : ({ a with lhs := lhs2, rhs := rhs2 } : KArgs R).ca0 = a.ca0 := rfl
  have hcb0 : ({ a with lhs := lhs2, rhs := rhs2 } : KArgs R).cb0 = a.cb0 := rfl
  have hca1 : ({ a with lhs := lhs2, rhs := rhs2 } : KArgs R).ca1 = a.ca1 := rfl
  have hcb1 : ({ a with lhs := lhs2, rhs := rhs2 } : KArgs R).cb1 = a.cb1 := rfl
  have hcja : ({ a with lhs := lhs2, rhs := rhs2 } : KArgs R).cjAlpha = a.cjAlpha := rfl
  simp only [hFT2, hfs2, hfe2, hca0, hcb0, hca1, hcb1, hcja]
  rw [hrj, hdiagA]
  cases hFT : a.FT
  · have hs : a.fstarti j = j + 1 := by
      unfold KArgs.fstarti
      rw [hFT]
      simp
    have he : a.fendi j = a.size := by
      unfold KArgs.fendi
      rw [hFT]
      simp
    rw [hs, he]
    have hsum : (∑ i ∈ Finset.Ico (j + 1) a.size,
        cjPmul a.ca1 a.cb1 (a.lhs (j * a.lhsStride + i)) (a.rhs i)) =
        ∑ i ∈ Finset.Ico (j + 1) a.size,
          cjPmul a.ca1 a.cb1 (lhs2 (j * a.lhsStride + i)) (rhs2 i) := by
      apply Finset.sum_congr rfl
      intro i hi
      rw [Finset.mem_Ico] at hi
      rw [hagree j i hj hi.2 (by rw [hFT, if_neg Bool.false_ne_true]; omega), hrhs i hi.2]
    rw [hsum]
    by_cases h : j + 1 ≤ m ∧ m < a.size
    · rw [if_pos h, if_pos h,
        hagree j m hj h.2 (by rw [hFT, if_neg Bool.false_ne_true]; omega)]
    · rw [if_neg h, if_neg h]
  · have hs : a.fstarti j = 0 := by
      unfold KArgs.fstarti
      rw [hFT]
      simp
    have he : a.fendi j = j := by
      unfold KArgs.fendi
      rw [hFT]
      simp
    rw [hs, he]
    have hsum : (∑ i ∈ Finset.Ico 0 j,
        cjPmul a.ca1 a.cb1 (a.lhs (j * a.lhsStride + i)) (a.rhs i)) =
        ∑ i ∈ Finset.Ico 0 j,
          cjPmul a.ca1 a.cb1 (lhs2 (j * a.lhsStride + i)) (rhs2 i) := by
      apply Finset.sum_congr rfl
      intro i hi
      rw [Finset.mem_Ico] at hi
      rw [hagree j i hj (by omega) (by rw [hFT, if_pos rfl]; omega), hrhs i (by omega)]
    rw [hsum]
    by_cases h : 0 ≤ m ∧ m < j
    · rw [if_pos h, if_pos h,
        hagree j m hj (by omega) (by rw [hFT, if_pos rfl]; omega)]
    · rw [if_neg h, if_neg h]

set_option maxHeartbeats 1600000 in
/-- One blocked iteration's delta depends on the matrix only through the
stored-triangle reads and on the operand only below `size`. -/
theorem pairDelta_congr (a : KArgs R) (lhs2 rhs2 : ℕ → R)
    (hagree : ∀ c i, c < a.size → i < a.size →
      (if a.FT = true then i ≤ c else c ≤ i) →
      a.lhs (c * a.lhsStride + i) = lhs2 (c * a.lhsStride + i))
    (hrhs : ∀ k, k < a.size → a.rhs k = rhs2 k)
    (j : ℕ) (hj : j + 1 < a.size) (m : ℕ) :
    pairDelta a j m = pairDelta { a with lhs := lhs2, rhs := rhs2 } j m := by
  have hjs : j < a.size := by omega
  have hrj : a.rhs j = rhs2 j := hrhs j hjs
  have hrj1 : a.rhs (j + 1) = rhs2 (j + 1) := hrhs (j + 1) hj
  have hdiag0 : a.lhs (j * a.lhsStride + j) = lhs2 (j * a.lhsStride + j) := by
    apply hagree j j hjs hjs
    cases hFT : a.FT <;> simp
  have hdiag1 : a.lhs ((j + 1) * a.lhsStride + (j + 1)) =
      lhs2 ((j + 1) * a.lhsStride + (j + 1)) := by
    apply hagree (j + 1) (j + 1) hj hj
    cases hFT : a.FT <;> simp
  have hb1 := starti_le_alignedStart a j
  simp only [pairDelta, KArgs.A0, KArgs.A1]
  have hFT2 : ({ a with lhs := lhs2, rhs := rhs2 } : KArgs R).FT = a.FT := rfl
  have hst2 : ({ a with lhs := lhs2, rhs := rhs2 } : KArgs R).starti j = a.starti j := rfl
  have hen2 : ({ a with lhs := lhs2, rhs := rhs2 } : KArgs R).endi j = a.endi j := rfl
  have hal2 : ({ a with lhs := lhs2, rhs := rhs2 } : KArgs R).alignedStart j =
      a.alignedStart j := rfl
  have hca0 : ({ a with lhs := lhs2, rhs := rhs2 } : KArgs R).ca0 = a.ca0 := rfl
  have hcb0 : ({ a with lhs := lhs2, rhs := rhs2 } : KArgs R).cb0 = a.cb0 := rfl
  have hca1 : ({ a with lhs := lhs2, rhs := rhs2 } : KArgs R).ca1 = a.ca1 := rfl
  have hcb1 : ({ a with lhs := lhs2, rhs := rhs2 } : KArgs R).cb1 = a.cb1 := rfl
  have hcja : ({ a with lhs := lhs2, rhs := rhs2 } : KArgs R).cjAlpha = a.cjAlpha := rfl
  simp only [hFT2, hst2, hen2, hal2, hca0, hcb0, hca1, hcb1, hcja]
  rw [hrj, hrj1, hdiag0, hdiag1]
  cases hFT : a.FT
  · -- not FirstTriangular
    have hs : a.starti j = j + 2 := by
      unfold KArgs.starti
      rw [hFT]
      simp
    have he : a.endi j = a.size := by
      unfold KArgs.endi
      rw [hFT]
      simp
    have hb3 : a.alignedStart j ≤ a.endi j := by
      apply alignedStart_le_endi
      rw [hs, he]
      omega
    have hoffd0 : a.lhs (j * a.lhsStride + (j + 1)) = lhs2 (j * a.lhsStride + (j + 1)) :=
      hagree j (j + 1) hjs hj (by rw [hFT, if_neg Bool.false_ne_true]; omega)
    rw [hoffd0]
    have hS0h : (∑ i ∈ Finset.Ico (a.starti j) (a.alignedStart j),
        ei_conj (a.lhs (j * a.lhsStride + i)) * a.rhs i) =
        ∑ i ∈ Finset.Ico (a.starti j) (a.alignedStart j),
          ei_conj (lhs2 (j * a.lhsStride + i)) * rhs2 i := by
      apply Finset.sum_congr rfl
      intro i hi
      rw [Finset.mem_Ico] at hi
      have his : i < a.size := by omega
      rw [hagree j i hjs his (by rw [hFT, if_neg Bool.false_ne_true]; omega), hrhs i his]
    have hS1h : (∑ i ∈ Finset.Ico (a.starti j) (a.alignedStart j),
        ei_conj (a.lhs ((j + 1) * a.lhsStride + i)) * a.rhs i) =
        ∑ i ∈ Finset.Ico (a.starti j) (a.alignedStart j),
          ei_conj (lhs2 ((j + 1) * a.lhsStride + i)) * rhs2 i := by
      apply Finset.sum_congr rfl
      intro i hi
      rw [Finset.mem_Ico] at hi
      have his : i < a.size := by omega
      rw [hagree (j + 1) i hj his (by rw [hFT, if_neg Bool.false_ne_true]; omega), hrhs i his]
    have hS0m : (∑ i ∈ Finset.Ico (a.alignedStart j) (a.endi j),
        cjPmul a.ca1 a.cb1 (a.lhs (j * a.lhsStride + i)) (a.rhs i)) =
        ∑ i ∈ Finset.Ico (a.alignedStart j) (a.endi j),
          cjPmul a.ca1 a.cb1 (lhs2 (j * a.lhsStride + i)) (rhs2 i) := by
      apply Finset.sum_congr rfl
      intro i hi
      rw [Finset.mem_Ico] at hi
      have his : i < a.size := by omega
      rw [hagree j i hjs his (by rw [hFT, if_neg Bool.false_ne_true]; omega), hrhs i his]
    have hS1m : (∑ i ∈ Finset.Ico (a.alignedStart j) (a.endi j),
        cjPmul a.ca1 a.cb1 (a.lhs ((j + 1) * a.lhsStride + i)) (a.rhs i)) =
        ∑ i ∈ Finset.Ico (a.alignedStart j) (a.endi j),
          cjPmul a.ca1 a.cb1 (lhs2 ((j + 1) * a.lhsStride + i)) (rhs2 i) := by
      apply Finset.sum_congr rfl
      intro i hi
      rw [Finset.mem_Ico] at hi
      have his : i < a.size := by omega
      rw [hagree (j + 1) i hj his (by rw [hFT, if_neg Bool.false_ne_true]; omega), hrhs i his]
    rw [hS0h, hS1h, hS0m, hS1m]
    have hT1 : (if a.starti j ≤ m ∧ m < a.alignedStart j then
        a.cjAlpha * rhs2 j * a.lhs (j * a.lhsStride + m) +
          a.cjAlpha * rhs2 (j + 1) * a.lhs ((j + 1) * a.lhsStride + m)
        else 0) =
        (if a.starti j ≤ m ∧ m < a.alignedStart j then
          a.cjAlpha * rhs2 j * lhs2 (j * a.lhsStride + m) +
            a.cjAlpha * rhs2 (j + 1) * lhs2 ((j + 1) * a.lhsStride + m)
        else 0) := by
      by_cases h : a.starti j ≤ m ∧ m < a.alignedStart j
      · have hms : m < a.size := by omega
        rw [if_pos h, if_pos h,
          hagree j m hjs hms (by rw [hFT, if_neg Bool.false_ne_true]; omega),
          hagree (j + 1) m hj hms (by rw [hFT, if_neg Bool.false_ne_true]; omega)]
      · rw [if_neg h, if_neg h]
    have hT2 : (if a.alignedStart j ≤ m ∧ m < a.endi j then
        cjPmul a.ca0 a.cb0 (a.lhs (j * a.lhsStride + m)) (a.cjAlpha * rhs2 j) +
          cjPmul a.ca0 a.cb0 (a.lhs ((j + 1) * a.lhsStride + m)) (a.cjAlpha * rhs2 (j + 1))
        else 0) =
        (if a.alignedStart j ≤ m ∧ m < a.endi j then
          cjPmul a.ca0 a.cb0 (lhs2 (j * a.lhsStride + m)) (a.cjAlpha * rhs2 j) +
            cjPmul a.ca0 a.cb0 (lhs2 ((j + 1) * a.lhsStride + m)) (a.cjAlpha * rhs2 (j + 1))
        else 0) := by
      by_cases h : a.alignedStart j ≤ m ∧ m < a.endi j
      · have hms : m < a.size := by omega
        rw [if_pos h, if_pos h,
          hagree j m hjs hms (by rw [hFT, if_neg Bool.false_ne_true]; omega),
          hagree (j + 1) m hj hms (by rw [hFT, if_neg Bool.false_ne_true]; omega)]
      · rw [if_neg h, if_neg h]
    rw [hT1, hT2]
    simp only [Bool.false_eq_true, if_false]
  · -- FirstTriangular
    have hs : a.starti j = 0 := by
      unfold KArgs.starti
      rw [hFT]
      simp
    have he : a.endi j = j := by
      unfold KArgs.endi
      rw [hFT]
      simp
    have hb3 : a.alignedStart j ≤ a.endi j := by
      apply alignedStart_le_endi
      rw [hs, he]
      omega
    have hoffd1 : a.lhs ((j + 1) * a.lhsStride + j) = lhs2 ((j + 1) * a.lhsStride + j) :=
      hagree (j + 1) j hj hjs (by rw [hFT, if_pos rfl]; omega)
    rw [hoffd1]
    have hS0h : (∑ i ∈ Finset.Ico (a.starti j) (a.alignedStart j),
        ei_conj (a.lhs (j * a.lhsStride + i)) * a.rhs i) =
        ∑ i ∈ Finset.Ico (a.starti j) (a.alignedStart j),
          ei_conj (lhs2 (j * a.lhsStride + i)) * rhs2 i := by
      apply Finset.sum_congr rfl
      intro i hi
      rw [Finset.mem_Ico] at hi
      have his : i < a.size := by omega
      rw [hagree j i hjs his (by rw [hFT, if_pos rfl]; omega), hrhs i his]
    have hS1h : (∑ i ∈ Finset.Ico (a.starti j) (a.alignedStart j),
        ei_conj (a.lhs ((j + 1) * a.lhsStride + i)) * a.rhs i) =
        ∑ i ∈ Finset.Ico (a.starti j) (a.alignedStart j),
          ei_conj (lhs2 ((j + 1) * a.lhsStride + i)) * rhs2 i := by
      apply Finset.sum_congr rfl
      intro i hi
      rw [Finset.mem_Ico] at hi
      have his : i < a.size := by omega
      rw [hagree (j + 1) i hj his (by rw [hFT, if_pos rfl]; omega), hrhs i his]
    have hS0m : (∑ i ∈ Finset.Ico (a.alignedStart j) (a.endi j),
        cjPmul a.ca1 a.cb1 (a.lhs (j * a.lhsStride + i)) (a.rhs i)) =
        ∑ i ∈ Finset.Ico (a.alignedStart j) (a.endi j),
          cjPmul a.ca1 a.cb1 (lhs2 (j * a.lhsStride + i)) (rhs2 i) := by
      apply Finset.sum_congr rfl
      intro i hi
      rw [Finset.mem_Ico] at hi
      have his : i < a.size := by omega
      rw [hagree j i hjs his (by rw [hFT, if_pos rfl]; omega), hrhs i his]
    have hS1m : (∑ i ∈ Finset.Ico (a.alignedStart j) (a.endi j),
        cjPmul a.ca1 a.cb1 (a.lhs ((j + 1) * a.lhsStride + i)) (a.rhs i)) =
        ∑ i ∈ Finset.Ico (a.alignedStart j) (a.endi j),
          cjPmul a.ca1 a.cb1 (lhs2 ((j + 1) * a.lhsStride + i)) (rhs2 i) := by
      apply Finset.sum_congr rfl
      intro i hi
      rw [Finset.mem_Ico] at hi
      have his : i < a.size := by omega
      rw [hagree (j + 1) i hj his (by rw [hFT, if_pos rfl]; omega), hrhs i his]
    rw [hS0h, hS1h, hS0m, hS1m]
    have hT1 : (if a.starti j ≤ m ∧ m < a.alignedStart j then
        a.cjAlpha * rhs2 j * a.lhs (j * a.lhsStride + m) +
          a.cjAlpha * rhs2 (j + 1) * a.lhs ((j + 1) * a.lhsStride + m)
        else 0) =
        (if a.starti j ≤ m ∧ m < a.alignedStart j then
          a.cjAlpha * rhs2 j * lhs2 (j * a.lhsStride + m) +
            a.cjAlpha * rhs2 (j + 1) * lhs2 ((j + 1) * a.lhsStride + m)
        else 0) := by
      by_cases h : a.starti j ≤ m ∧ m < a.alignedStart j
      · have hms : m < a.size := by omega
        rw [if_pos h, if_pos h,
          hagree j m hjs hms (by rw [hFT, if_pos rfl]; omega),
          hagree (j + 1) m hj hms (by rw [hFT, if_pos rfl]; omega)]
      · rw [if_neg h, if_neg h]
    have hT2 : (if a.alignedStart j ≤ m ∧ m < a.endi j then
        cjPmul a.ca0 a.cb0 (a.lhs (j * a.lhsStride + m)) (a.cjAlpha * rhs2 j) +
          cjPmul a.ca0 a.cb0 (a.lhs ((j + 1) * a.lhsStride + m)) (a.cjAlpha * rhs2 (j + 1))
        else 0) =
        (if a.alignedStart j ≤ m ∧ m < a.endi j then
          cjPmul a.ca0 a.cb0 (lhs2 (j * a.lhsStride + m)) (a.cjAlpha * rhs2 j) +
            cjPmul a.ca0 a.cb0 (lhs2 ((j + 1) * a.lhsStride + m)) (a.cjAlpha * rhs2 (j + 1))
        else 0) := by
      by_cases h : a.alignedStart j ≤ m ∧ m < a.endi j
      · have hms : m < a.size := by omega
        rw [if_pos h, if_pos h,
          hagree j m hjs hms (by rw [hFT, if_pos rfl]; omega),
          hagree (j + 1) m hj hms (by rw [hFT, if_pos rfl]; omega)]
      · rw [if_neg h, if_neg h]
    rw [hT1, hT2]
    simp only [if_true]

/-! ### Column layout of the two loops -/

theorem sum_range_offset (f : ℕ → R) (s n : ℕ) :
    (∑ k ∈ Finset.range n, f (s + k)) = ∑ c ∈ Finset.Ico s (s + n), f c := by
  induction n with
  | zero => simp
  | succ n ih =>
    rw [Finset.sum_range_succ, ih]
    have h1 : s + (n + 1) = (s + n) + 1 := rfl
    rw [h1, Finset.sum_Ico_succ_top (by omega)]

/-- When the second triangular part comes first (`FT = false`), the blocked
loop covers columns `[0, bound0)` and the fallback covers
`[bound0, size)`. -/
theorem layout_false (a : KArgs R) (h : a.FT = false) :
    a.jstart = 0 ∧ 2 * a.numPairs = a.bound0 ∧ a.fstart = a.bound0 ∧
      a.fstart + a.numFb = a.size ∧ a.bound0 ≤ a.size := by
  unfold KArgs.numPairs KArgs.numFb KArgs.jstart KArgs.jstop KArgs.fstart KArgs.fstop
    KArgs.bound KArgs.bound0
  rw [h]
  simp only [Bool.false_eq_true, if_false, true_and, and_true]
  omega

/-- When the first triangular part comes first (`FT = true`), the fallback
covers columns `[0, size - bound0)` and the blocked loop covers
`[size - bound0, size)`. -/
theorem layout_true (a : KArgs R) (h : a.FT = true) :
    a.fstart = 0 ∧ a.numFb = a.jstart ∧ a.jstart + 2 * a.numPairs = a.size ∧
      a.jstart ≤ a.size := by
  unfold KArgs.numPairs KArgs.numFb KArgs.jstart KArgs.jstop KArgs.fstart KArgs.fstop
    KArgs.bound KArgs.bound0
  rw [h]
  simp only [if_true, true_and, and_true]
  omega

/-! ### The kernel never writes at or above `size` -/

theorem pairDelta_oob (a : KArgs R) (j m : ℕ) (hj : j + 1 < a.size)
    (hm : a.size ≤ m) : pairDelta a j m = 0 := by
  have hcond : a.alignedStart j ≤ a.size := by
    cases hFT : a.FT
    · have hs : a.starti j = j + 2 := by
        unfold KArgs.starti
        rw [hFT]
        simp
      have he : a.endi j = a.size := by
        unfold KArgs.endi
        rw [hFT]
        simp
      have h2 := alignedStart_le_endi a j (by rw [hs, he]; omega)
      omega
    · have hs : a.starti j = 0 := by
        unfold KArgs.starti
        rw [hFT]
        simp
      have he : a.endi j = j := by
        unfold KArgs.endi
        rw [hFT]
        simp
      have h2 := alignedStart_le_endi a j (by rw [hs, he]; omega)
      omega
  have hend : a.endi j ≤ a.size := by
    unfold KArgs.endi
    cases hFT : a.FT <;> simp only [Bool.false_eq_true, if_false, if_true] <;> omega
  simp only [pairDelta]
  rw [if_neg (by omega : ¬(a.starti j ≤ m ∧ m < a.alignedStart j))]
  rw [if_neg (by omega : ¬(a.alignedStart j ≤ m ∧ m < a.endi j))]
  rw [if_neg (by omega : ¬m = j)]
  rw [if_neg (by omega : ¬m = j + 1)]
  ring

theorem fbDelta_oob (a : KArgs R) (j m : ℕ) (hj : j < a.size)
    (hm : a.size ≤ m) : fbDelta a j m = 0 := by
  have hfe : a.fendi j ≤ a.size := by
    unfold KArgs.fendi
    cases hFT : a.FT <;> simp only [Bool.false_eq_true, if_false, if_true] <;> omega
  simp only [fbDelta]
  rw [if_neg (by omega : ¬(a.fstarti j ≤ m ∧ m < a.fendi j))]
  rw [if_neg (by omega : ¬m = j)]
  ring

theorem totalDelta_oob (a : KArgs R) (m : ℕ) (hm : a.size ≤ m) :
    totalDelta a m = 0 := by
  unfold totalDelta
  have hp : ∀ k ∈ Finset.range a.numPairs, pairDelta a (a.jstart + 2 * k) m = 0 := by
    intro k hk
    rw [Finset.mem_range] at hk
    apply pairDelta_oob a _ m _ hm
    cases hFT : a.FT
    · obtain ⟨h1, h2, h3, h4, h5⟩ := layout_false a hFT
      omega
    · obtain ⟨h1, h2, h3, h4⟩ := layout_true a hFT
      omega
  have hf : ∀ k ∈ Finset.range a.numFb, fbDelta a (a.fstart + k) m = 0 := by
    intro k hk
    rw [Finset.mem_range] at hk
    apply fbDelta_oob a _ m _ hm
    cases hFT : a.FT
    · obtain ⟨h1, h2, h3, h4, h5⟩ := layout_false a hFT
      omega
    · obtain ⟨h1, h2, h3, h4⟩ := layout_true a hFT
      omega
  rw [Finset.sum_congr rfl hp, Finset.sum_congr rfl hf]
  simp

/-! ### The total delta as a sum of per-column reference deltas -/

/-- For a real scalar type the two loops together contribute exactly the
per-column reference deltas of all `size` columns. -/
theorem totalDelta_eq_sum_real (a : KArgs R) (hstar : ∀ x : R, star x = x)
    (m : ℕ) :
    totalDelta a m = ∑ c ∈ Finset.range a.size, colDeltaRef a c m := by
  have hdiag : ∀ i, i < a.size →
      ei_conj (a.lhs (i * a.lhsStride + i)) = a.lhs (i * a.lhsStride + i) :=
    fun i _ => hstar _
  unfold totalDelta
  cases hFT : a.FT
  · obtain ⟨h1, h2, h3, h4, h5⟩ := layout_false a hFT
    have hp : ∀ k ∈ Finset.range a.numPairs, pairDelta a (a.jstart + 2 * k) m =
        colDeltaRef a (a.jstart + 2 * k) m + colDeltaRef a (a.jstart + 2 * k + 1) m := by
      intro k hk
      rw [Finset.mem_range] at hk
      exact pairDelta_eq_colDeltaRef a hstar _ (by omega) m
    have hf : ∀ k ∈ Finset.range a.numFb, fbDelta a (a.fstart + k) m =
        colDeltaRef a (a.fstart + k) m := by
      intro k hk
      rw [Finset.mem_range] at hk
      exact fbDelta_eq_colDeltaRef a hdiag _ (by omega) m
    rw [Finset.sum_congr rfl hp, Finset.sum_congr rfl hf]
    have hps := sum_pairs (fun c => colDeltaRef a c m) a.jstart a.numPairs
    simp only [] at hps
    rw [hps]
    have hro := sum_range_offset (fun c => colDeltaRef a c m) a.fstart a.numFb
    simp only [] at hro
    rw [hro]
    have hj2 : a.jstart + 2 * a.numPairs = a.fstart := by omega
    rw [hj2, h1, Finset.range_eq_Ico]
    have h6 : a.fstart + a.numFb = a.size := h4
    rw [h6]
    exact Finset.sum_Ico_consecutive _ (Nat.zero_le _) (by omega)
  · obtain ⟨h1, h2, h3, h4⟩ := layout_true a hFT
    have hp : ∀ k ∈ Finset.range a.numPairs, pairDelta a (a.jstart + 2 * k) m =
        colDeltaRef a (a.jstart + 2 * k) m + colDeltaRef a (a.jstart + 2 * k + 1) m := by
      intro k hk
      rw [Finset.mem_range] at hk
      exact pairDelta_eq_colDeltaRef a hstar _ (by omega) m
    have hf : ∀ k ∈ Finset.range a.numFb, fbDelta a (a.fstart + k) m =
        colDeltaRef a (a.fstart + k) m := by
      intro k hk
      rw [Finset.mem_range] at hk
      exact fbDelta_eq_colDeltaRef a hdiag _ (by omega) m
    rw [Finset.sum_congr rfl hp, Finset.sum_congr rfl hf]
    have hps := sum_pairs (fun c => colDeltaRef a c m) a.jstart a.numPairs
    simp only [] at hps
    rw [hps]
    have hro := sum_range_offset (fun c => colDeltaRef a c m) a.fstart a.numFb
    simp only [] at hro
    rw [hro]
    rw [h3, h1, Finset.range_eq_Ico]
    have h5 : 0 + a.numFb = a.jstart := by omega
    rw [h5, add_comm]
    exact Finset.sum_Ico_consecutive _ (Nat.zero_le _) h4

/-- For `size <= 9` the blocked loop runs zero iterations and the fallback
covers every column. -/
theorem numPairs_small (a : KArgs R) (h : a.size ≤ 9) :
    a.numPairs = 0 ∧ a.fstart = 0 ∧ a.numFb = a.size := by
  unfold KArgs.numPairs KArgs.numFb KArgs.jstart KArgs.jstop KArgs.fstart KArgs.fstop
    KArgs.bound KArgs.bound0
  cases hFT : a.FT <;> simp only [Bool.false_eq_true, if_false, if_true, true_and, and_true] <;>
    omega

/-- For `size <= 9` (fallback only) the kernel's delta equals the reference
per-column deltas, for any scalar type whose stored diagonal is fixed by
conjugation. -/
theorem totalDelta_eq_sum_small (a : KArgs R) (hsize : a.size ≤ 9)
    (hdiag : ∀ i, i < a.size →
      ei_conj (a.lhs (i * a.lhsStride + i)) = a.lhs (i * a.lhsStride + i))
    (m : ℕ) :
    totalDelta a m = ∑ c ∈ Finset.range a.size, colDeltaRef a c m := by
  obtain ⟨h1, h2, h3⟩ := numPairs_small a hsize
  unfold totalDelta
  rw [h1, h2, h3]
  simp only [Finset.range_zero, Finset.sum_empty, zero_add]
  have hf : ∀ k ∈ Finset.range a.size, fbDelta a k m = colDeltaRef a k m := by
    intro k hk
    rw [Finset.mem_range] at hk
    exact fbDelta_eq_colDeltaRef a hdiag k hk m
  rw [Finset.sum_congr rfl hf]

/-- The total delta depends only on the stored-side matrix entries and the
operand entries below `size`. -/
theorem totalDelta_congr (a : KArgs R) (lhs2 rhs2 : ℕ → R)
    (hagree : ∀ c i, c < a.size → i < a.size →
      (if a.FT = true then i ≤ c else c ≤ i) →
      a.lhs (c * a.lhsStride + i) = lhs2 (c * a.lhsStride + i))
    (hrhs : ∀ k, k < a.size → a.rhs k = rhs2 k) (m : ℕ) :
    totalDelta a m = totalDelta { a with lhs := lhs2, rhs := rhs2 } m := by
  unfold totalDelta
  have hnp : ({ a with lhs := lhs2, rhs := rhs2 } : KArgs R).numPairs = a.numPairs := rfl
  have hjs : ({ a with lhs := lhs2, rhs := rhs2 } : KArgs R).jstart = a.jstart := rfl
  have hnf : ({ a with lhs := lhs2, rhs := rhs2 } : KArgs R).numFb = a.numFb := rfl
  have hfs : ({ a with lhs := lhs2, rhs := rhs2 } : KArgs R).fstart = a.fstart := rfl
  rw [hnp, hjs, hnf, hfs]
  have hp : ∀ k ∈ Finset.range a.numPairs, pairDelta a (a.jstart + 2 * k) m =
      pairDelta { a with lhs := lhs2, rhs := rhs2 } (a.jstart + 2 * k) m := by
    intro k hk
    rw [Finset.mem_range] at hk
    apply pairDelta_congr a lhs2 rhs2 hagree hrhs _ _ m
    cases hFT : a.FT
    · obtain ⟨h1, h2, h3, h4, h5⟩ := layout_false a hFT
      omega
    · obtain ⟨h1, h2, h3, h4⟩ := layout_true a hFT
      omega
  have hf : ∀ k ∈ Finset.range a.numFb, fbDelta a (a.fstart + k) m =
      fbDelta { a with lhs := lhs2, rhs := rhs2 } (a.fstart + k) m := by
    intro k hk
    rw [Finset.mem_range] at hk
    apply fbDelta_congr a lhs2 rhs2 hagree hrhs _ _ m
    cases hFT : a.FT
    · obtain ⟨h1, h2, h3, h4, h5⟩ := layout_false a hFT
      omega
    · obtain ⟨h1, h2, h3, h4⟩ := layout_true a hFT
      omega
  rw [Finset.sum_congr rfl hp, Finset.sum_congr rfl hf]


/-! ### The materialized operand -/

theorem kernelArgs_rhs (isComplex IsRowMajor IsLower ConjugateLhs ConjugateRhs : Bool)
    (ps resAlign size : ℕ) (lhs : ℕ → R) (lhsStride : ℕ) (rhsBuf : ℕ → R) (rhsIncr : ℕ)
    (alpha : R) (k : ℕ) (hk : k < size) :
    (kernelArgs isComplex IsRowMajor IsLower ConjugateLhs ConjugateRhs
        ps resAlign size lhs lhsStride rhsBuf rhsIncr alpha).rhs k =
      xlog rhsBuf rhsIncr k := by
  have h0 : (kernelArgs isComplex IsRowMajor IsLower ConjugateLhs ConjugateRhs
      ps resAlign size lhs lhsStride rhsBuf rhsIncr alpha).rhs =
      (if rhsIncr = 1 then rhsBuf
       else fun i => if i < size then rhsBuf (i * rhsIncr) else 0) := rfl
  rw [h0]
  unfold xlog
  by_cases h : rhsIncr = 1
  · rw [if_pos h, h, Nat.mul_one]
  · rw [if_neg h]
    rw [if_pos hk]

/-! ### Master equalities against the reference -/

/-- For a real scalar type the kernel body computes the reference row sums
exactly, on every input. -/
theorem kernelRun_refRes_real (a : KArgs R) (hstar : ∀ x : R, star x = x)
    (res : ℕ → R) (m : ℕ) :
    kernelRun a res m =
      if m < a.size then
        res m + a.alpha * ∑ c ∈ Finset.range a.size,
          Mmat a.isComplex a.IsRowMajor a.IsLower a.ConjugateLhs a.lhs a.lhsStride m c *
            conjIf a.ConjugateRhs (a.rhs c)
      else res m := by
  rw [kernelRun_closed, totalDelta_eq_sum_real a hstar m, sum_colDeltaRef_total]
  by_cases hm : m < a.size
  · rw [if_pos hm, if_pos hm]
  · rw [if_neg hm, if_neg hm, add_zero]

/-- For `size <= 9` (fallback only) the kernel body computes the reference
row sums exactly, for any scalar type whose stored diagonal is fixed by
conjugation. -/
theorem kernelRun_refRes_small (a : KArgs R) (hsize : a.size ≤ 9)
    (hdiag : ∀ i, i < a.size →
      ei_conj (a.lhs (i * a.lhsStride + i)) = a.lhs (i * a.lhsStride + i))
    (res : ℕ → R) (m : ℕ) :
    kernelRun a res m =
      if m < a.size then
        res m + a.alpha * ∑ c ∈ Finset.range a.size,
          Mmat a.isComplex a.IsRowMajor a.IsLower a.ConjugateLhs a.lhs a.lhsStride m c *
            conjIf a.ConjugateRhs (a.rhs c)
      else res m := by
  rw [kernelRun_closed, totalDelta_eq_sum_small a hsize hdiag m, sum_colDeltaRef_total]
  by_cases hm : m < a.size
  · rw [if_pos hm, if_pos hm]
  · rw [if_neg hm, if_neg hm, add_zero]

/-- For a real scalar type `ei_product_selfadjoint_vector` equals the
reference on every input and every flag setting. -/
theorem product_eq_refRes_real (isComplex IsRowMajor IsLower ConjugateLhs ConjugateRhs : Bool)
    (ps resAlign size : ℕ) (lhs : ℕ → R) (lhsStride : ℕ) (rhsBuf : ℕ → R) (rhsIncr : ℕ)
    (res : ℕ → R) (alpha : R) (hstar : ∀ x : R, star x = x) (m : ℕ) :
    ei_product_selfadjoint_vector isComplex IsRowMajor IsLower ConjugateLhs ConjugateRhs
        ps resAlign size lhs lhsStride rhsBuf rhsIncr res alpha m =
      refRes isComplex IsRowMajor IsLower ConjugateLhs ConjugateRhs
        size lhs lhsStride rhsBuf rhsIncr res alpha m := by
  unfold ei_product_selfadjoint_vector
  rw [kernelRun_refRes_real _ hstar]
  unfold refRes
  have hsz : (kernelArgs isComplex IsRowMajor IsLower ConjugateLhs ConjugateRhs
      ps resAlign size lhs lhsStride rhsBuf rhsIncr alpha).size = size := rfl
  have hic : (kernelArgs isComplex IsRowMajor IsLower ConjugateLhs ConjugateRhs
      ps resAlign size lhs lhsStride rhsBuf rhsIncr alpha).isComplex = isComplex := rfl
  have hrm : (kernelArgs isComplex IsRowMajor IsLower ConjugateLhs ConjugateRhs
      ps resAlign size lhs lhsStride rhsBuf rhsIncr alpha).IsRowMajor = IsRowMajor := rfl
  have hlo : (kernelArgs isComplex IsRowMajor IsLower ConjugateLhs ConjugateRhs
      ps resAlign size lhs lhsStride rhsBuf rhsIncr alpha).IsLower = IsLower := rfl
  have hcl : (kernelArgs isComplex IsRowMajor IsLower ConjugateLhs ConjugateRhs
      ps resAlign size lhs lhsStride rhsBuf rhsIncr alpha).ConjugateLhs = ConjugateLhs := rfl
  have hcr : (kernelArgs isComplex IsRowMajor IsLower ConjugateLhs ConjugateRhs
      ps resAlign size lhs lhsStride rhsBuf rhsIncr alpha).ConjugateRhs = ConjugateRhs := rfl
  have hlh : (kernelArgs isComplex IsRowMajor IsLower ConjugateLhs ConjugateRhs
      ps resAlign size lhs lhsStride rhsBuf rhsIncr alpha).lhs = lhs := rfl
  have hld : (kernelArgs isComplex IsRowMajor IsLower ConjugateLhs ConjugateRhs
      ps resAlign size lhs lhsStride rhsBuf rhsIncr alpha).lhsStride = lhsStride := rfl
  have hal : (kernelArgs isComplex IsRowMajor IsLower ConjugateLhs ConjugateRhs
      ps resAlign size lhs lhsStride rhsBuf rhsIncr alpha).alpha = alpha := rfl
  rw [hsz, hic, hrm, hlo, hcl, hcr, hlh, hld, hal]
  have hsum : ∀ c ∈ Finset.range size,
      Mmat isComplex IsRowMajor IsLower ConjugateLhs lhs lhsStride m c *
        conjIf ConjugateRhs ((kernelArgs isComplex IsRowMajor IsLower ConjugateLhs
          ConjugateRhs ps resAlign size lhs lhsStride rhsBuf rhsIncr alpha).rhs c) =
      Mmat isComplex IsRowMajor IsLower ConjugateLhs lhs lhsStride m c *
        conjIf ConjugateRhs (xlog rhsBuf rhsIncr c) := by
    intro c hc
    rw [Finset.mem_range] at hc
    rw [kernelArgs_rhs isComplex IsRowMajor IsLower ConjugateLhs ConjugateRhs
      ps resAlign size lhs lhsStride rhsBuf rhsIncr alpha c hc]
  rw [Finset.sum_congr rfl hsum]

/-- For `size <= 9` (fallback only) `ei_product_selfadjoint_vector` equals
the reference on every input and every flag setting, for any scalar type
whose stored diagonal is fixed by conjugation. -/
theorem product_eq_refRes_small (isComplex IsRowMajor IsLower ConjugateLhs ConjugateRhs : Bool)
    (ps resAlign size : ℕ) (lhs : ℕ → R) (lhsStride : ℕ) (rhsBuf : ℕ → R) (rhsIncr : ℕ)
    (res : ℕ → R) (alpha : R) (hsize : size ≤ 9)
    (hdiag : ∀ i, i < size →
      ei_conj (lhs (i * lhsStride + i)) = lhs (i * lhsStride + i)) (m : ℕ) :
    ei_product_selfadjoint_vector isComplex IsRowMajor IsLower ConjugateLhs ConjugateRhs
        ps resAlign size lhs lhsStride rhsBuf rhsIncr res alpha m =
      refRes isComplex IsRowMajor IsLower ConjugateLhs ConjugateRhs
        size lhs lhsStride rhsBuf rhsIncr res alpha m := by
  unfold ei_product_selfadjoint_vector
  rw [kernelRun_refRes_small _ hsize hdiag]
  unfold refRes
  have hsz : (kernelArgs isComplex IsRowMajor IsLower ConjugateLhs ConjugateRhs
      ps resAlign size lhs lhsStride rhsBuf rhsIncr alpha).size = size := rfl
  have hic : (kernelArgs isComplex IsRowMajor IsLower ConjugateLhs ConjugateRhs
      ps resAlign size lhs lhsStride rhsBuf rhsIncr alpha).isComplex = isComplex := rfl
  have hrm : (kernelArgs isComplex IsRowMajor IsLower ConjugateLhs ConjugateRhs
      ps resAlign size lhs lhsStride rhsBuf rhsIncr alpha).IsRowMajor = IsRowMajor := rfl
  have hlo : (kernelArgs isComplex IsRowMajor IsLower ConjugateLhs ConjugateRhs
      ps resAlign size lhs lhsStride rhsBuf rhsIncr alpha).IsLower = IsLower := rfl
  have hcl : (kernelArgs isComplex IsRowMajor IsLower ConjugateLhs ConjugateRhs
      ps resAlign size lhs lhsStride rhsBuf rhsIncr alpha).ConjugateLhs = ConjugateLhs := rfl
  have hcr : (kernelArgs isComplex IsRowMajor IsLower ConjugateLhs ConjugateRhs
      ps resAlign size lhs lhsStride rhsBuf rhsIncr alpha).ConjugateRhs = ConjugateRhs := rfl
  have hlh : (kernelArgs isComplex IsRowMajor IsLower ConjugateLhs ConjugateRhs
      ps resAlign size lhs lhsStride rhsBuf rhsIncr alpha).lhs = lhs := rfl
  have hld : (kernelArgs isComplex IsRowMajor IsLower ConjugateLhs ConjugateRhs
      ps resAlign size lhs lhsStride rhsBuf rhsIncr alpha).lhsStride = lhsStride := rfl
  have hal : (kernelArgs isComplex IsRowMajor IsLower ConjugateLhs ConjugateRhs
      ps resAlign size lhs lhsStride rhsBuf rhsIncr alpha).alpha = alpha := rfl
  rw [hsz, hic, hrm, hlo, hcl, hcr, hlh, hld, hal]
  have hsum : ∀ c ∈ Finset.range size,
      Mmat isComplex IsRowMajor IsLower ConjugateLhs lhs lhsStride m c *
        conjIf ConjugateRhs ((kernelArgs isComplex IsRowMajor IsLower ConjugateLhs
          ConjugateRhs ps resAlign size lhs lhsStride rhsBuf rhsIncr alpha).rhs c) =
      Mmat isComplex IsRowMajor IsLower ConjugateLhs lhs lhsStride m c *
        conjIf ConjugateRhs (xlog rhsBuf rhsIncr c) := by
    intro c hc
    rw [Finset.mem_range] at hc
    rw [kernelArgs_rhs isComplex IsRowMajor IsLower ConjugateLhs ConjugateRhs
      ps resAlign size lhs lhsStride rhsBuf rhsIncr alpha c hc]
  rw [Finset.sum_congr rfl hsum]

/-! ### Real-scalar shape of the reference matrix -/

/-- For a real scalar type the effective matrix entry ignores the
conjugation flag: it is the stored entry, or its transpose outside the
stored triangle. -/
theorem Mmat_real (hstar : ∀ x : R, star x = x) (ic rm lo cl : Bool)
    (lhs : ℕ → R) (S r c : ℕ) :
    Mmat ic rm lo cl lhs S r c =
      if inStored lo r c then physRead rm lhs S r c else physRead rm lhs S c r := by
  unfold Mmat
  simp only [conjIf_id hstar]

/-- For a real scalar type the per-column reference delta mentions neither
conjugation flag. -/
theorem colDeltaRef_real (a : KArgs R) (hstar : ∀ x : R, star x = x) (c m : ℕ) :
    colDeltaRef a c m =
      (if (if a.FT = true then m ≤ c else c ≤ m ∧ m < a.size) then
          a.alpha * (if inStored a.IsLower m c then physRead a.IsRowMajor a.lhs a.lhsStride m c
            else physRead a.IsRowMajor a.lhs a.lhsStride c m) * a.rhs c
        else 0) +
      (if m = c then
          a.alpha * ∑ i ∈ (if a.FT = true then Finset.Ico 0 c else Finset.Ico (c + 1) a.size),
            (if inStored a.IsLower c i then physRead a.IsRowMajor a.lhs a.lhsStride c i
             else physRead a.IsRowMajor a.lhs a.lhsStride i c) * a.rhs i
        else 0) := by
  unfold colDeltaRef
  simp only [Mmat_real hstar, conjIf_id hstar]

/-! ### Storage of a logical symmetric matrix -/

/-- Reading the physical buffer of a logical matrix recovers the logical
entry, in either storage order. -/
theorem symmStorage_read (S : ℕ) (rm : Bool) (A : ℕ → ℕ → R) (r c : ℕ)
    (hr : r < S) (hc : c < S) :
    physRead rm (symmStorage S rm A) S r c = A r c := by
  cases rm
  · simp only [physRead, symmStorage, Bool.false_eq_true, if_false]
    have h1 : (c * S + r) / S = c := by
      rw [Nat.mul_comm, Nat.mul_add_div (by omega), Nat.div_eq_of_lt hr]
      omega
    have h2 : (c * S + r) % S = r := by
      rw [Nat.mul_comm, Nat.mul_add_mod]
      exact Nat.mod_eq_of_lt hr
    rw [h1, h2]
  · simp only [physRead, symmStorage, if_true]
    have h1 : (r * S + c) / S = r := by
      rw [Nat.mul_comm, Nat.mul_add_div (by omega), Nat.div_eq_of_lt hc]
      omega
    have h2 : (r * S + c) % S = c := by
      rw [Nat.mul_comm, Nat.mul_add_mod]
      exact Nat.mod_eq_of_lt hc
    rw [h1, h2]

/-- For a real scalar type the effective matrix of a stored logical
symmetric matrix is that matrix, in any of the four parametrizations. -/
theorem Mmat_symmStorage (hstar : ∀ x : R, star x = x) (ic rm lo cl : Bool)
    (S size : ℕ) (hS : size ≤ S) (A : ℕ → ℕ → R)
    (hsym : ∀ r, r < size → ∀ c, c < size → A r c = A c r)
    (r c : ℕ) (hr : r < size) (hc : c < size) :
    Mmat ic rm lo cl (symmStorage S rm A) S r c = A r c := by
  rw [Mmat_real hstar]
  by_cases h : inStored lo r c
  · rw [if_pos h, symmStorage_read S rm A r c (by omega) (by omega)]
  · rw [if_neg h, symmStorage_read S rm A c r (by omega) (by omega)]
    exact hsym c hc r hr

/-- The reference result on a stored logical symmetric matrix does not
depend on the parametrization (for a real scalar type, no conjugation
flags). -/
theorem refRes_symmStorage_pair (hstar : ∀ x : R, star x = x) (ic rm lo rm2 lo2 : Bool)
    (S size : ℕ) (hS : size ≤ S) (A : ℕ → ℕ → R)
    (hsym : ∀ r, r < size → ∀ c, c < size → A r c = A c r)
    (rhsBuf : ℕ → R) (rhsIncr : ℕ) (res : ℕ → R) (alpha : R) (m : ℕ) :
    refRes ic rm lo false false size (symmStorage S rm A) S rhsBuf rhsIncr res alpha m =
      refRes ic rm2 lo2 false false size (symmStorage S rm2 A) S rhsBuf rhsIncr res alpha m := by
  unfold refRes
  by_cases hm : m < size
  · rw [if_pos hm, if_pos hm]
    have hsum : ∀ c ∈ Finset.range size,
        Mmat ic rm lo false (symmStorage S rm A) S m c * conjIf false (xlog rhsBuf rhsIncr c) =
        Mmat ic rm2 lo2 false (symmStorage S rm2 A) S m c *
          conjIf false (xlog rhsBuf rhsIncr c) := by
      intro c hc
      rw [Finset.mem_range] at hc
      rw [Mmat_symmStorage hstar ic rm lo false S size hS A hsym m c hm hc,
        Mmat_symmStorage hstar ic rm2 lo2 false S size hS A hsym m c hm hc]
    rw [Finset.sum_congr rfl hsum]
  · rw [if_neg hm, if_neg hm]

/-- Agreement of two buffers on the stored triangle (stated in logical
coordinates) gives agreement at every stored-side kernel read address. -/
theorem stored_agree_majmin (IsRowMajor IsLower : Bool) (size S : ℕ)
    (lhs lhs2 : ℕ → R)
    (hagree : ∀ r, r < size → ∀ c, c < size → inStored IsLower r c →
      physRead IsRowMajor lhs S r c = physRead IsRowMajor lhs2 S r c)
    (c i : ℕ) (hc : c < size) (hi : i < size)
    (hside : if (IsRowMajor == IsLower) = true then i ≤ c else c ≤ i) :
    lhs (c * S + i) = lhs2 (c * S + i) := by
  cases IsRowMajor <;> cases IsLower <;> simp at hside
  · have h := hagree i hi c hc (by simpa [inStored] using hside)
    simpa [physRead] using h
  · have h := hagree i hi c hc (by simpa [inStored] using hside)
    simpa [physRead] using h
  · have h := hagree c hc i hi (by simpa [inStored] using hside)
    simpa [physRead] using h
  · have h := hagree c hc i hi (by simpa [inStored] using hside)
    simpa [physRead] using h


/-! ## The claims -/

/-- The spec's example scenario: size 3, row-major, lower-stored, real,
stored values `[[2,_,_],[1,3,_],[0,1,4]]`, `x = [1,1,1]`, `alpha = 1`,
`res` initially 0 gives `res = [3,5,5]`. -/
theorem spec_example_3x3 :
    ei_product_selfadjoint_vector false true true false false 2 0 3 specLhs 3
        zOnes 1 zZeros 1 0 = 3 ∧
    ei_product_selfadjoint_vector false true true false false 2 0 3 specLhs 3
        zOnes 1 zZeros 1 1 = 5 ∧
    ei_product_selfadjoint_vector false true true false false 2 0 3 specLhs 3
        zOnes 1 zZeros 1 2 = 5 := by
  decide

/-- C1: the claimed contract `res[i] += alpha * sum_j A[i][j] * x[j]` (with
the unstored triangle derived by conjugate symmetry) fails on a complex
scalar type.  For size 10, row-major, lower-stored Gaussian-integer input
with `A[8][0] = i` and every other stored entry 1, `x` all ones,
`alpha = 1`, `res` initially 0, a packet of 2 lanes and an accumulator
alignment giving the blocked columns 8,9 a one-element unaligned head, the
kernel's `res[0]` differs from the reference row sum: the head loop
(lines 105-110) multiplies by the stored entry `A[8][0]` directly where the
reference (and the aligned body and tail, lines 113-134) use its
conjugate. -/
theorem c1_contract_counterexample :
    ei_product_selfadjoint_vector true true true false false 2 1 10 gLhsRM 10
        gOnes 1 gZeros 1 0 ≠
      refRes true true true false false 10 gLhsRM 10 gOnes 1 gZeros 1 0 := by
  decide

/-- C2: toggling the conjugate-matrix flag does not match the naive
reference on the explicitly conjugated matrix, on a complex scalar type.
For size 10, column-major, lower-stored Gaussian-integer input with
`A[2][0] = i` and every other stored entry 1, `ConjugateLhs = true`, the
kernel's `res[2]` differs from the no-flag reference on the materialized
conjugated matrix: the head loop (lines 105-110) skips the `cj0`/`cj1`
conjugation helpers that the aligned body, the tail and the reference
apply. -/
theorem c2_conjugation_counterexample :
    ei_product_selfadjoint_vector true false true true false 2 1 10 gLhsCM 10
        gOnes 1 gZeros 1 2 ≠
      refRes true false true false false 10 (fun k => star (gLhsCM k)) 10
        gOnes 1 gZeros 1 2 := by
  decide

/-- C3: on a complex scalar type the four parametrizations do not agree.
The same logical Hermitian matrix (`A[2][0] = i`, `A[0][2] = -i`, every
other entry 1) passed as (column-major, lower) and as (row-major, upper)
gives different results at index 2, because the unaligned head loop
(lines 105-110) applies a conjugation pattern that is only correct for the
column-major parametrizations. -/
theorem c3_complex_counterexample :
    ei_product_selfadjoint_vector true false true false false 2 1 10 gLhsCM 10
        gOnes 1 gZeros 1 2 ≠
      ei_product_selfadjoint_vector true true false false false 2 1 10 gLhsRMU 10
        gOnes 1 gZeros 1 2 := by
  decide

/-- C3 (amended to a real scalar type): for a fixed logical symmetric
matrix, the four parametrizations (row-major/column-major crossed with
upper/lower), with the stored half relabeled accordingly, produce the same
result vector (exactly, not only within tolerance). -/
theorem c3_four_parametrizations_agree (hstar : ∀ x : R, star x = x)
    (isComplex : Bool) (ps resAlign size S : ℕ) (hS : size ≤ S)
    (A : ℕ → ℕ → R) (hsym : ∀ r, r < size → ∀ c, c < size → A r c = A c r)
    (rhsBuf : ℕ → R) (rhsIncr : ℕ) (res : ℕ → R) (alpha : R) (m : ℕ) :
    (ei_product_selfadjoint_vector isComplex true true false false ps resAlign size
        (symmStorage S true A) S rhsBuf rhsIncr res alpha m =
      ei_product_selfadjoint_vector isComplex true false false false ps resAlign size
        (symmStorage S true A) S rhsBuf rhsIncr res alpha m) ∧
    (ei_product_selfadjoint_vector isComplex true true false false ps resAlign size
        (symmStorage S true A) S rhsBuf rhsIncr res alpha m =
      ei_product_selfadjoint_vector isComplex false true false false ps resAlign size
        (symmStorage S false A) S rhsBuf rhsIncr res alpha m) ∧
    (ei_product_selfadjoint_vector isComplex true true false false ps resAlign size
        (symmStorage S true A) S rhsBuf rhsIncr res alpha m =
      ei_product_selfadjoint_vector isComplex false false false false ps resAlign size
        (symmStorage S false A) S rhsBuf rhsIncr res alpha m) := by
  refine ⟨?_, ?_, ?_⟩ <;>
  · rw [product_eq_refRes_real _ _ _ _ _ _ _ _ _ _ _ _ _ _ hstar,
      product_eq_refRes_real _ _ _ _ _ _ _ _ _ _ _ _ _ _ hstar]
    exact refRes_symmStorage_pair hstar _ _ _ _ _ S size hS A hsym rhsBuf rhsIncr res alpha m

/-- C3 witness: the amended statement evaluated on a concrete symmetric
integer matrix. -/
theorem c3_four_parametrizations_agree_witness :
    ei_product_selfadjoint_vector false true true false false 2 1 3
        (symmStorage 3 true zSym) 3 zIdx 1 zZeros 1 0 =
      ei_product_selfadjoint_vector false true false false false 2 1 3
        (symmStorage 3 true zSym) 3 zIdx 1 zZeros 1 0 :=
  (c3_four_parametrizations_agree (fun x : ℤ => rfl) false 2 1 3 3 (by omega) zSym
    (by decide) zIdx 1 zZeros 1 0).1

/-- C4: the kernel's output depends only on the matrix entries in the
stored triangle (diagonal included): for every size and flag setting, two
buffers that agree on the stored triangle produce identical results. -/
theorem c4_stored_triangle_only (isComplex IsRowMajor IsLower ConjugateLhs ConjugateRhs : Bool)
    (ps resAlign size : ℕ) (lhs lhs2 : ℕ → R) (lhsStride : ℕ) (rhsBuf : ℕ → R) (rhsIncr : ℕ)
    (res : ℕ → R) (alpha : R)
    (hagree : ∀ r, r < size → ∀ c, c < size → inStored IsLower r c →
      physRead IsRowMajor lhs lhsStride r c = physRead IsRowMajor lhs2 lhsStride r c)
    (m : ℕ) :
    ei_product_selfadjoint_vector isComplex IsRowMajor IsLower ConjugateLhs ConjugateRhs
        ps resAlign size lhs lhsStride rhsBuf rhsIncr res alpha m =
      ei_product_selfadjoint_vector isComplex IsRowMajor IsLower ConjugateLhs ConjugateRhs
        ps resAlign size lhs2 lhsStride rhsBuf rhsIncr res alpha m := by
  unfold ei_product_selfadjoint_vector
  rw [kernelRun_closed, kernelRun_closed]
  have hcast : ({ kernelArgs isComplex IsRowMajor IsLower ConjugateLhs ConjugateRhs
        ps resAlign size lhs lhsStride rhsBuf rhsIncr alpha with
      lhs := lhs2,
      rhs := (kernelArgs isComplex IsRowMajor IsLower ConjugateLhs ConjugateRhs
        ps resAlign size lhs lhsStride rhsBuf rhsIncr alpha).rhs } : KArgs R) =
      kernelArgs isComplex IsRowMajor IsLower ConjugateLhs ConjugateRhs
        ps resAlign size lhs2 lhsStride rhsBuf rhsIncr alpha := rfl
  have hc := totalDelta_congr
    (kernelArgs isComplex IsRowMajor IsLower ConjugateLhs ConjugateRhs
      ps resAlign size lhs lhsStride rhsBuf rhsIncr alpha)
    lhs2
    (kernelArgs isComplex IsRowMajor IsLower ConjugateLhs ConjugateRhs
      ps resAlign size lhs lhsStride rhsBuf rhsIncr alpha).rhs
    (fun c i hcnd hind hside => stored_agree_majmin IsRowMajor IsLower size lhsStride
      lhs lhs2 hagree c i hcnd hind hside)
    (fun k hk => rfl) m
  rw [hcast] at hc
  rw [hc]

/-- C4 witness: two 3x3 row-major lower-stored integer buffers that differ
at the unstored logical entry `(0, 1)` produce the same result. -/
theorem c4_stored_triangle_only_witness :
    ei_product_selfadjoint_vector false true true false false 2 1 3 zLhsA 3
        zOnes 1 zZeros 1 0 =
      ei_product_selfadjoint_vector false true true false false 2 1 3 zLhsB 3
        zOnes 1 zZeros 1 0 :=
  c4_stored_triangle_only false true true false false 2 1 3 zLhsA zLhsB 3 zOnes 1 zZeros 1
    (by decide) 0

/-- C5: for sizes 0, 1, 2, 3, 7, 8 and 9 (all below the blocking threshold,
with a unit operand stride and a conjugation-fixed stored diagonal) the
two-column blocked loop runs zero iterations, the result matches the dense
reference, accumulator entries at or above `size` are left unchanged, and
operand entries at or above `size` are never read. -/
theorem c5_boundary_sizes (isComplex IsRowMajor IsLower ConjugateLhs ConjugateRhs : Bool)
    (ps resAlign size : ℕ) (lhs : ℕ → R) (lhsStride : ℕ) (rhsBuf : ℕ → R)
    (res : ℕ → R) (alpha : R)
    (hsize : size ∈ [0, 1, 2, 3, 7, 8, 9])
    (hdiag : ∀ i, i < size →
      ei_conj (lhs (i * lhsStride + i)) = lhs (i * lhsStride + i)) :
    (kernelArgs isComplex IsRowMajor IsLower ConjugateLhs ConjugateRhs
        ps resAlign size lhs lhsStride rhsBuf 1 alpha).numPairs = 0 ∧
    (∀ m, ei_product_selfadjoint_vector isComplex IsRowMajor IsLower ConjugateLhs ConjugateRhs
        ps resAlign size lhs lhsStride rhsBuf 1 res alpha m =
      refRes isComplex IsRowMajor IsLower ConjugateLhs ConjugateRhs
        size lhs lhsStride rhsBuf 1 res alpha m) ∧
    (∀ m, size ≤ m →
      ei_product_selfadjoint_vector isComplex IsRowMajor IsLower ConjugateLhs ConjugateRhs
          ps resAlign size lhs lhsStride rhsBuf 1 res alpha m = res m) ∧
    (∀ rhs2 : ℕ → R, (∀ k, k < size → rhsBuf k = rhs2 k) → ∀ m,
      ei_product_selfadjoint_vector isComplex IsRowMajor IsLower ConjugateLhs ConjugateRhs
          ps resAlign size lhs lhsStride rhsBuf 1 res alpha m =
        ei_product_selfadjoint_vector isComplex IsRowMajor IsLower ConjugateLhs ConjugateRhs
          ps resAlign size lhs lhsStride rhs2 1 res alpha m) := by
  have h9 : size ≤ 9 := by
    simp only [List.mem_cons, List.not_mem_nil, or_false] at hsize
    omega
  refine ⟨?_, ?_, ?_, ?_⟩
  · exact (numPairs_small _ h9).1
  · intro m
    exact product_eq_refRes_small isComplex IsRowMajor IsLower ConjugateLhs ConjugateRhs
      ps resAlign size lhs lhsStride rhsBuf 1 res alpha h9 hdiag m
  · intro m hm
    unfold ei_product_selfadjoint_vector
    rw [kernelRun_closed, totalDelta_oob _ _ hm, add_zero]
  · intro rhs2 hr2 m
    unfold ei_product_selfadjoint_vector
    rw [kernelRun_closed, kernelRun_closed]
    have hcast : ({ kernelArgs isComplex IsRowMajor IsLower ConjugateLhs ConjugateRhs
          ps resAlign size lhs lhsStride rhsBuf 1 alpha with
        lhs := lhs, rhs := rhs2 } : KArgs R) =
        kernelArgs isComplex IsRowMajor IsLower ConjugateLhs ConjugateRhs
          ps resAlign size lhs lhsStride rhs2 1 alpha := rfl
    have hc := totalDelta_congr
      (kernelArgs isComplex IsRowMajor IsLower ConjugateLhs ConjugateRhs
        ps resAlign size lhs lhsStride rhsBuf 1 alpha)
      lhs rhs2 (fun c i _ _ _ => rfl) (fun k hk => hr2 k hk) m
    rw [hcast] at hc
    rw [hc]

/-- C5 witness: the statement evaluated at size 3 on integer input. -/
theorem c5_boundary_sizes_witness :
    (kernelArgs false true true false false 2 1 3 zLhsA 3 zOnes 1 1).numPairs = 0 ∧
    ei_product_selfadjoint_vector false true true false false 2 1 3 zLhsA 3
        zOnes 1 zZeros 1 0 =
      refRes false true true false false 3 zLhsA 3 zOnes 1 zZeros 1 0 :=
  ⟨(c5_boundary_sizes false true true false false 2 1 3 zLhsA 3 zOnes zZeros 1
      (by decide) (fun i _ => rfl)).1,
   (c5_boundary_sizes false true true false false 2 1 3 zLhsA 3 zOnes zZeros 1
      (by decide) (fun i _ => rfl)).2.1 0⟩

/-- C6: with operand stride 2 the kernel result equals the unit-stride
result on any buffer holding the de-interleaved values (the contiguous
scratch copy of lines 56-64); the scratch buffer is allocated, and released
before return, exactly when the stride is not 1. -/
theorem c6_strided_operand (isComplex IsRowMajor IsLower ConjugateLhs ConjugateRhs : Bool)
    (ps resAlign size : ℕ) (lhs : ℕ → R) (lhsStride : ℕ) (rhsBuf : ℕ → R)
    (res : ℕ → R) (alpha : R) (g : ℕ → R)
    (hg : ∀ k, k < size → g k = rhsBuf (2 * k)) (m : ℕ) :
    (ei_product_selfadjoint_vector isComplex IsRowMajor IsLower ConjugateLhs ConjugateRhs
        ps resAlign size lhs lhsStride rhsBuf 2 res alpha m =
      ei_product_selfadjoint_vector isComplex IsRowMajor IsLower ConjugateLhs ConjugateRhs
        ps resAlign size lhs lhsStride g 1 res alpha m) ∧
    kernelAllocScratch 2 = true ∧ kernelFreeScratch 2 = true ∧
    kernelAllocScratch 1 = false ∧ kernelFreeScratch 1 = false := by
  refine ⟨?_, rfl, rfl, rfl, rfl⟩
  unfold ei_product_selfadjoint_vector
  rw [kernelRun_closed, kernelRun_closed]
  have hcast : ({ kernelArgs isComplex IsRowMajor IsLower ConjugateLhs ConjugateRhs
        ps resAlign size lhs lhsStride rhsBuf 2 alpha with
      lhs := lhs, rhs := g } : KArgs R) =
      kernelArgs isComplex IsRowMajor IsLower ConjugateLhs ConjugateRhs
        ps resAlign size lhs lhsStride g 1 alpha := rfl
  have hc := totalDelta_congr
    (kernelArgs isComplex IsRowMajor IsLower ConjugateLhs ConjugateRhs
      ps resAlign size lhs lhsStride rhsBuf 2 alpha)
    lhs g (fun c i _ _ _ => rfl)
    (fun k hk => by
      have h1 : (kernelArgs isComplex IsRowMajor IsLower ConjugateLhs ConjugateRhs
          ps resAlign size lhs lhsStride rhsBuf 2 alpha).rhs k = rhsBuf (k * 2) :=
        kernelArgs_rhs isComplex IsRowMajor IsLower ConjugateLhs ConjugateRhs
          ps resAlign size lhs lhsStride rhsBuf 2 alpha k hk
      rw [h1, hg k hk, Nat.mul_comm]) m
  rw [hcast] at hc
  rw [hc]

/-- C6 witness: the statement evaluated at size 3 on integer input, with a
de-interleaved buffer that differs from the strided reads above `size`. -/
theorem c6_strided_operand_witness :
    ei_product_selfadjoint_vector false true true false false 2 1 3 zLhsA 3
        zIdx 2 zZeros 1 0 =
      ei_product_selfadjoint_vector false true true false false 2 1 3 zLhsA 3
        zDeint 1 zZeros 1 0 :=
  (c6_strided_operand false true true false false 2 1 3 zLhsA 3 zIdx zZeros 1 zDeint
    (by decide) 0).1

/-- C7: every store of the kernel accumulates (`res[i] += _`, never `=`):
starting from a zeroed accumulator, two identical calls produce exactly
double the single-call result. -/
theorem c7_accumulates (isComplex IsRowMajor IsLower ConjugateLhs ConjugateRhs : Bool)
    (ps resAlign size : ℕ) (lhs : ℕ → R) (lhsStride : ℕ) (rhsBuf : ℕ → R) (rhsIncr : ℕ)
    (alpha : R) (m : ℕ) :
    ei_product_selfadjoint_vector isComplex IsRowMajor IsLower ConjugateLhs ConjugateRhs
        ps resAlign size lhs lhsStride rhsBuf rhsIncr
        (ei_product_selfadjoint_vector isComplex IsRowMajor IsLower ConjugateLhs ConjugateRhs
          ps resAlign size lhs lhsStride rhsBuf rhsIncr (fun _ => 0) alpha) alpha m =
      2 * ei_product_selfadjoint_vector isComplex IsRowMajor IsLower ConjugateLhs ConjugateRhs
        ps resAlign size lhs lhsStride rhsBuf rhsIncr (fun _ => 0) alpha m := by
  unfold ei_product_selfadjoint_vector
  rw [kernelRun_closed, kernelRun_closed]
  ring

/-- C8: with `alpha = 0` the kernel leaves every accumulator entry
unchanged, on every input and flag setting. -/
theorem c8_alpha_zero (isComplex IsRowMajor IsLower ConjugateLhs ConjugateRhs : Bool)
    (ps resAlign size : ℕ) (lhs : ℕ → R) (lhsStride : ℕ) (rhsBuf : ℕ → R) (rhsIncr : ℕ)
    (res : ℕ → R) (m : ℕ) :
    ei_product_selfadjoint_vector isComplex IsRowMajor IsLower ConjugateLhs ConjugateRhs
        ps resAlign size lhs lhsStride rhsBuf rhsIncr res 0 m = res m := by
  unfold ei_product_selfadjoint_vector
  rw [kernelRun_closed, totalDelta_alpha_zero _ rfl, add_zero]

/-- C9: when the destination has matching dimensions and unit stride, the
dispatch wrapper invokes the kernel exactly once, passing the product of
the caller's scale and the two operands' embedded scalar factors, the
vector side's factor conjugated when that operand is flagged as a
transposed/conjugated expression; otherwise the assertion fails and
nothing runs. -/
theorem c9_wrapper_dispatch (isComplex IsRowMajor IsLower : Bool)
    (lhsOp rhsOp : BlasOperand R) (ps resAlign size : ℕ) (lhs : ℕ → R) (lhsStride : ℕ)
    (rhsBuf : ℕ → R) (rhsIncr : ℕ) (dstLen dstStride : ℕ) (dst : ℕ → R) (alpha : R) :
    (dstLen = size ∧ dstStride = 1 →
      scaleAndAddTo isComplex IsRowMajor IsLower lhsOp rhsOp ps resAlign size lhs lhsStride
          rhsBuf rhsIncr dstLen dstStride dst alpha =
        some (ei_product_selfadjoint_vector isComplex IsRowMajor IsLower
          lhsOp.needToConjugate rhsOp.needToConjugate ps resAlign size lhs lhsStride
          rhsBuf rhsIncr dst
          (alpha * lhsOp.factor *
            (if rhsOp.needToConjugate then ei_conj rhsOp.factor else rhsOp.factor)), 1)) ∧
    (¬(dstLen = size ∧ dstStride = 1) →
      scaleAndAddTo isComplex IsRowMajor IsLower lhsOp rhsOp ps resAlign size lhs lhsStride
          rhsBuf rhsIncr dstLen dstStride dst alpha = none) := by
  constructor
  · intro h
    unfold scaleAndAddTo actualAlpha
    rw [if_pos h]
  · intro h
    unfold scaleAndAddTo
    rw [if_neg h]

/-- C10: for a real scalar type the kernel's result does not depend on the
two conjugation flags. -/
theorem c10_real_flag_independence (hstar : ∀ x : R, star x = x)
    (isComplex IsRowMajor IsLower cl cr cl2 cr2 : Bool)
    (ps resAlign size : ℕ) (lhs : ℕ → R) (lhsStride : ℕ) (rhsBuf : ℕ → R) (rhsIncr : ℕ)
    (res : ℕ → R) (alpha : R) (m : ℕ) :
    ei_product_selfadjoint_vector isComplex IsRowMajor IsLower cl cr
        ps resAlign size lhs lhsStride rhsBuf rhsIncr res alpha m =
      ei_product_selfadjoint_vector isComplex IsRowMajor IsLower cl2 cr2
        ps resAlign size lhs lhsStride rhsBuf rhsIncr res alpha m := by
  unfold ei_product_selfadjoint_vector
  rw [kernelRun_closed, kernelRun_closed]
  rw [totalDelta_eq_sum_real _ hstar, totalDelta_eq_sum_real _ hstar]
  have hsum : ∀ c ∈ Finset.range (kernelArgs isComplex IsRowMajor IsLower cl cr
      ps resAlign size lhs lhsStride rhsBuf rhsIncr alpha).size,
      colDeltaRef (kernelArgs isComplex IsRowMajor IsLower cl cr
        ps resAlign size lhs lhsStride rhsBuf rhsIncr alpha) c m =
      colDeltaRef (kernelArgs isComplex IsRowMajor IsLower cl2 cr2
        ps resAlign size lhs lhsStride rhsBuf rhsIncr alpha) c m := by
    intro c _
    rw [colDeltaRef_real _ hstar, colDeltaRef_real _ hstar]
    rfl
  rw [Finset.sum_congr rfl hsum]
  rfl

/-- C10 witness: flag settings `(true, false)` and `(false, true)` agree on
a concrete integer input. -/
theorem c10_real_flag_independence_witness :
    ei_product_selfadjoint_vector false true true true false 2 1 3 zLhsA 3
        zOnes 1 zZeros 1 0 =
      ei_product_selfadjoint_vector false true true false true 2 1 3 zLhsA 3
        zOnes 1 zZeros 1 0 :=
  c10_real_flag_independence (fun x : ℤ => rfl) false true true true false false true 2 1 3
    zLhsA 3 zOnes 1 zZeros 1 0

end SelfadjointMV
